import Mathlib

/-!
Verification of the OpenROAD resizer core (`src/resizer/src/Resizer.cc`)
against its natural-language specification.

The development shallowly embeds the decision logic of the resizer:
geometry in integer DBU, the unique-name generator, the area-budget
check, the gate-sizer candidate selection, the target-load model,
the parasitic-estimator RC selection, the hold-repair buffer count,
buffer removal and input buffering on a small netlist model.
Floating-point quantities are modelled as rationals; machine loops with
data-dependent exits carry explicit fuel where the source loop's
termination relies on floating-point saturation.
-/

namespace Resizer

/-! ### Units and geometry (`Resizer::dbuToMeters`, `ord::closestPtInRect`,
`Point::manhattanDistance`) -/

/-- A point in integer database units, as `odb::Point`. -/
structure Pt where
  x : Int
  y : Int
deriving DecidableEq, Repr

/-- A rectangle in integer database units, as `odb::Rect`. -/
structure Rect where
  xMin : Int
  yMin : Int
  xMax : Int
  yMax : Int
deriving DecidableEq, Repr

/-- `ord::closestPtInRect`: clamp each coordinate of `(x, y)` into the
rectangle. -/
def closestPtInRect (r : Rect) (x y : Int) : Pt :=
  ⟨max r.xMin (min x r.xMax), max r.yMin (min y r.yMax)⟩

/-- `Resizer::dbuToMeters`: `dist / (dbu * 1e6)` with `dbu` the database
units per micron. -/
def dbuToMeters (dbu : Nat) (dist : Int) : ℚ :=
  (dist : ℚ) / ((dbu : ℚ) * 1000000)

/-- `Point::manhattanDistance`. -/
def manhattanDistance (a b : Pt) : Int :=
  |a.x - b.x| + |a.y - b.y|

/-! ### `Resizer::tieLocation` (lines 1141-1182)

The load pin's location, whether it is a top-level port, and (for an
instance pin) the bounding box of its instance are the data the function
reads from the database. -/

/-- The data `tieLocation` reads about its `load` pin. -/
structure LoadPin where
  loc : Pt
  isTopLevelPort : Bool
  bbox : Rect
deriving DecidableEq, Repr

/-- Distance from the load pin to the left edge of its instance's
bounding box (`abs(load_x - bbox->xMin())`). -/
def leftDist (load : LoadPin) : Int := |load.loc.x - load.bbox.xMin|

/-- Distance to the right edge (`abs(load_x - bbox->xMax())`). -/
def rightDist (load : LoadPin) : Int := |load.loc.x - load.bbox.xMax|

/-- Distance to the bottom edge (`abs(load_y - bbox->yMin())`). -/
def botDist (load : LoadPin) : Int := |load.loc.y - load.bbox.yMin|

/-- Distance to the top edge (`abs(load_y - bbox->yMax())`). -/
def topDist (load : LoadPin) : Int := |load.loc.y - load.bbox.yMax|

/-- `Resizer::tieLocation(load, separation)`: move the tie cell
`separation` DBU away from the load toward the strictly nearest side of
the load instance's bounding box, then clamp into the core rectangle
when one exists. The four side tests are translated one-for-one from
the source's four `if` statements. -/
def tieLocation (load : LoadPin) (separation : Int) (coreExists : Bool)
    (core : Rect) : Pt :=
  let load_x := load.loc.x
  let load_y := load.loc.y
  let tie_x := load_x
  let tie_y := load_y
  let p :=
    if load.isTopLevelPort then (tie_x, tie_y)
    else
      let left_dist := leftDist load
      let right_dist := rightDist load
      let bot_dist := botDist load
      let top_dist := topDist load
      let tie_x := if left_dist < right_dist ∧ left_dist < bot_dist
                      ∧ left_dist < top_dist
                   then tie_x - separation else tie_x
      let tie_x := if right_dist < left_dist ∧ right_dist < bot_dist
                      ∧ right_dist < top_dist
                   then tie_x + separation else tie_x
      let tie_y := if bot_dist < left_dist ∧ bot_dist < right_dist
                      ∧ bot_dist < top_dist
                   then tie_y - separation else tie_y
      let tie_y := if top_dist < left_dist ∧ top_dist < right_dist
                      ∧ top_dist < bot_dist
                   then tie_y + separation else tie_y
      (tie_x, tie_y)
  if coreExists then closestPtInRect core p.1 p.2 else ⟨p.1, p.2⟩

/-- Containment of a point in a rectangle. -/
def inRect (r : Rect) (p : Pt) : Prop :=
  r.xMin ≤ p.x ∧ p.x ≤ r.xMax ∧ r.yMin ≤ p.y ∧ p.y ≤ r.yMax

theorem closestPtInRect_mem (r : Rect) (x y : Int)
    (hx : r.xMin ≤ r.xMax) (hy : r.yMin ≤ r.yMax) :
    inRect r (closestPtInRect r x y) := by
  unfold inRect closestPtInRect
  refine ⟨le_max_left _ _, ?_, le_max_left _ _, ?_⟩ <;>
    simp only [max_le_iff, min_le_iff] <;> omega

/-- The clamp applied by `tieLocation` when a core rectangle exists. -/
def clampIf (coreExists : Bool) (core : Rect) (p : Pt) : Pt :=
  if coreExists then closestPtInRect core p.x p.y else p

/-- C8: for a load pin on an instance, `tieLocation` offsets the load's
location by `separation` toward the unique bounding-box side strictly
closer to the pin than the other three sides; with no strictly closest
side the pre-clamp point is the load's location; when a core exists the
result is clamped into the core. -/
theorem tie_location_spec (load : LoadPin) (sep : Int) (ce : Bool)
    (core : Rect) (hport : load.isTopLevelPort = false) :
    ((leftDist load < rightDist load ∧ leftDist load < botDist load ∧
        leftDist load < topDist load →
      tieLocation load sep ce core
        = clampIf ce core ⟨load.loc.x - sep, load.loc.y⟩) ∧
     (rightDist load < leftDist load ∧ rightDist load < botDist load ∧
        rightDist load < topDist load →
      tieLocation load sep ce core
        = clampIf ce core ⟨load.loc.x + sep, load.loc.y⟩) ∧
     (botDist load < leftDist load ∧ botDist load < rightDist load ∧
        botDist load < topDist load →
      tieLocation load sep ce core
        = clampIf ce core ⟨load.loc.x, load.loc.y - sep⟩) ∧
     (topDist load < leftDist load ∧ topDist load < rightDist load ∧
        topDist load < botDist load →
      tieLocation load sep ce core
        = clampIf ce core ⟨load.loc.x, load.loc.y + sep⟩) ∧
     (¬(leftDist load < rightDist load ∧ leftDist load < botDist load ∧
          leftDist load < topDist load) ∧
      ¬(rightDist load < leftDist load ∧ rightDist load < botDist load ∧
          rightDist load < topDist load) ∧
      ¬(botDist load < leftDist load ∧ botDist load < rightDist load ∧
          botDist load < topDist load) ∧
      ¬(topDist load < leftDist load ∧ topDist load < rightDist load ∧
          topDist load < botDist load) →
      tieLocation load sep ce core = clampIf ce core load.loc)) ∧
    (ce = true → core.xMin ≤ core.xMax → core.yMin ≤ core.yMax →
      inRect core (tieLocation load sep ce core)) := by
  constructor
  · unfold tieLocation clampIf
    simp only [hport, Bool.false_eq_true, if_false]
    generalize leftDist load = l
    generalize rightDist load = r
    generalize botDist load = b
    generalize topDist load = t
    refine ⟨?_, ?_, ?_, ?_, ?_⟩ <;> intro h
    · rw [if_pos h, if_neg (c := r < l ∧ r < b ∧ r < t) (by omega),
        if_neg (c := b < l ∧ b < r ∧ b < t) (by omega),
        if_neg (c := t < l ∧ t < r ∧ t < b) (by omega)]
    · rw [if_neg (c := l < r ∧ l < b ∧ l < t) (by omega), if_pos h,
        if_neg (c := b < l ∧ b < r ∧ b < t) (by omega),
        if_neg (c := t < l ∧ t < r ∧ t < b) (by omega)]
    · rw [if_neg (c := l < r ∧ l < b ∧ l < t) (by omega),
        if_neg (c := r < l ∧ r < b ∧ r < t) (by omega), if_pos h,
        if_neg (c := t < l ∧ t < r ∧ t < b) (by omega)]
    · rw [if_neg (c := l < r ∧ l < b ∧ l < t) (by omega),
        if_neg (c := r < l ∧ r < b ∧ r < t) (by omega),
        if_neg (c := b < l ∧ b < r ∧ b < t) (by omega), if_pos h]
    · rw [if_neg h.1, if_neg h.2.1, if_neg h.2.2.1, if_neg h.2.2.2]
  · intro hce hx hy
    unfold tieLocation
    rw [hce]
    simp only [if_true]
    exact closestPtInRect_mem core _ _ hx hy

/-- Concrete check of `tie_location_spec`: load pin at `(10, 40)` in a
`100×100` bounding box is strictly closest to the left side, so the tie
is placed at `(10-3, 40)` and clamped into the `50×50` core. -/
theorem tie_location_spec_witness :
    tieLocation ⟨⟨10, 40⟩, false, ⟨0, 0, 100, 100⟩⟩ 3 true ⟨0, 0, 50, 50⟩
      = ⟨7, 40⟩ := by
  have h := tie_location_spec ⟨⟨10, 40⟩, false, ⟨0, 0, 100, 100⟩⟩ 3 true
    ⟨0, 0, 50, 50⟩ rfl
  exact (h.1.1 (by decide)).trans (by decide)

/-! ### Area budget (`Resizer::overMaxArea`, `Resizer::setMaxUtilization`,
and the abort check in the `Resizer::resizeToTargetSlew()` driver loop) -/

/-- The fuzzy comparison supplied by the external timer library
(`sta/Fuzzy.hh`, outside this repository).
Modelled from the spec: "Fuzzy-equal / fuzzy-greater: comparison with a
small absolute tolerance appropriate for floating-point circuit
quantities." -/
def fuzzyGreaterEqualSpec (x y : ℚ) : Bool :=
  decide (y - x ≤ 1 / 10 ^ 12)

/-- `Resizer::overMaxArea` (lines 698-703): `max_area_ &&
fuzzyGreaterEqual(design_area_, max_area_)`.  The first conjunct is the
C++ double-to-bool conversion, i.e. `max_area_ != 0`.  The fuzzy
comparison is a parameter since it lives in the external timer library. -/
def overMaxArea (fge : ℚ → ℚ → Bool) (design_area max_area : ℚ) : Bool :=
  decide (max_area ≠ 0) && fge design_area max_area

/-- `Resizer::setMaxUtilization` (lines 692-696):
`max_area_ = coreArea() * max_utilization`. -/
def setMaxUtilization (coreArea max_utilization : ℚ) : ℚ :=
  coreArea * max_utilization

/-- Outcome of one outer pass of `Resizer::resizeToTargetSlew()`. -/
structure PassResult where
  design_area : ℚ
  editsApplied : Nat
  warning : Option String
deriving DecidableEq, Repr

/-- The outer driver loop of `Resizer::resizeToTargetSlew()` (lines
479-505), abstracted over the per-driver `design_area` increments `ds`
of the drivers that pass the net/constant/fanout/clock/special guards:
each driver is resized (its edit applied), then
`if (overMaxArea()) { warn("Max utilization reached."); break; }`. -/
def resizePass (fge : ℚ → ℚ → Bool) (max_area : ℚ) :
    List ℚ → ℚ → PassResult
  | [], a => ⟨a, 0, none⟩
  | d :: ds, a =>
    let a' := a + d
    if overMaxArea fge a' max_area then
      ⟨a', 1, some "Max utilization reached."⟩
    else
      let r := resizePass fge max_area ds a'
      ⟨r.design_area, r.editsApplied + 1, r.warning⟩

/-- Sum of the first `n` per-driver area increments. -/
def sumTake (n : Nat) (ds : List ℚ) : ℚ := (ds.take n).sum

/-- C10: with `max_area = 0` (`setMaxUtilization` never called — the
constructor initializes `max_area_(0.0)`), `overMaxArea` is `false` for
every design area and every fuzzy comparison, so the resize pass never
warns and never aborts: every driver's edit is applied. -/
theorem over_max_area_unset_never_aborts :
    ∀ (fge : ℚ → ℚ → Bool) (design_area : ℚ),
      overMaxArea fge design_area 0 = false ∧
      ∀ (ds : List ℚ) (a : ℚ),
        (resizePass fge 0 ds a).warning = none ∧
        (resizePass fge 0 ds a).editsApplied = ds.length := by
  intro fge design_area
  have hzero : ∀ x : ℚ, overMaxArea fge x 0 = false := by
    intro x
    simp [overMaxArea]
  refine ⟨hzero _, ?_⟩
  intro ds
  induction ds with
  | nil => intro a; exact ⟨rfl, rfl⟩
  | cons d ds ih =>
    intro a
    simp [resizePass, hzero, (ih (a + d)).1, (ih (a + d)).2]

/-- C5 counterexample: with `max_area = 0`, the design area (here `1`
after the single edit) is fuzzy-greater-or-equal to `max_area`, yet the
pass neither warns nor breaks, because `overMaxArea` first tests
`max_area_` as a boolean. -/
theorem max_area_zero_no_warn_cex :
    fuzzyGreaterEqualSpec (0 + 1) 0 = true ∧
    resizePass fuzzyGreaterEqualSpec 0 [1] 0 = ⟨1, 1, none⟩ := by
  constructor
  · simp only [fuzzyGreaterEqualSpec, decide_eq_true_eq]
    norm_num
  · simp [resizePass, overMaxArea]

/-- C5 (amended to nonzero `max_area`): when `max_area` is nonzero and
the design area first becomes fuzzy-greater-or-equal to `max_area` at
the check after the `(k+1)`-st edit, the pass emits the warning
`"Max utilization reached."` and breaks out of its outer loop: exactly
the `k+1` edits made so far are kept (no rollback) and no further edits
happen. -/
theorem over_max_area_pass_aborts (fge : ℚ → ℚ → Bool) (maxA : ℚ)
    (ds : List ℚ) (a : ℚ) (k : Nat)
    (hmaxA : maxA ≠ 0)
    (hk : k < ds.length)
    (hfge : fge (a + sumTake (k + 1) ds) maxA = true)
    (hbefore : ∀ j < k, fge (a + sumTake (j + 1) ds) maxA = false) :
    resizePass fge maxA ds a
      = ⟨a + sumTake (k + 1) ds, k + 1, some "Max utilization reached."⟩ := by
  induction ds generalizing a k with
  | nil => simp at hk
  | cons d ds ih =>
    have hsum : ∀ n, sumTake (n + 1) (d :: ds) = d + sumTake n ds := by
      intro n
      simp [sumTake]
    cases k with
    | zero =>
      have h1 : sumTake 1 (d :: ds) = d := by simp [sumTake]
      rw [h1] at hfge ⊢
      have : overMaxArea fge (a + d) maxA = true := by
        simp [overMaxArea, hmaxA, hfge]
      simp only [resizePass, this, if_true]
    | succ j =>
      have h0 : fge (a + d) maxA = false := by
        have := hbefore 0 (Nat.succ_pos j)
        rwa [hsum 0, show sumTake 0 ds = 0 from rfl, add_zero] at this
      have hcond : overMaxArea fge (a + d) maxA = false := by
        simp [overMaxArea, h0]
      simp only [resizePass, hcond, Bool.false_eq_true, if_false]
      have hrec := ih (a + d) j (Nat.lt_of_succ_lt_succ (by simpa using hk))
        (by rw [hsum (j + 1), ← add_assoc] at hfge; exact hfge)
        (fun i hi => by
          have := hbefore (i + 1) (Nat.succ_lt_succ hi)
          rwa [hsum (i + 1), ← add_assoc] at this)
      rw [hrec, hsum (j + 1), ← add_assoc]

/-- Concrete check of `over_max_area_pass_aborts`: budget `10`, edits
adding `4` then `7`; the second check sees area `11 ≥ 10`, so the pass
stops with the warning after two edits, never applying the third. -/
theorem over_max_area_pass_aborts_witness :
    resizePass fuzzyGreaterEqualSpec 10 [4, 7, 5] 0
      = ⟨11, 2, some "Max utilization reached."⟩ := by
  have h := over_max_area_pass_aborts fuzzyGreaterEqualSpec 10 [4, 7, 5] 0 1
    (by norm_num) (by norm_num)
    (by simp only [fuzzyGreaterEqualSpec, sumTake, decide_eq_true_eq]; norm_num)
    (by intro j hj
        interval_cases j
        simp only [fuzzyGreaterEqualSpec, sumTake, decide_eq_false_iff_not]
        norm_num)
  rw [h]
  norm_num [sumTake]

/-! ### Gate sizer candidate selection
(`Resizer::resizeToTargetSlew(const Pin*)`, lines 528-632) -/

/-- A candidate equivalent cell as the sizer sees it: its entry in the
`TargetLoadMap`, its `bufferDelay` at the driver's load capacitance
(computed only when the current cell is a buffer/inverter, else `0`),
and its don't-use flag. -/
structure SizeCand where
  id : Nat
  target_load : ℚ
  delay : ℚ
  dont_use : Bool
deriving DecidableEq, Repr

/-- The sizer's running best cell (`best_cell`, `best_load`,
`best_ratio`, `best_delay`). -/
structure BestCell where
  id : Nat
  load : ℚ
  ratio : ℚ
  delay : ℚ
deriving DecidableEq, Repr

/-- The candidate ratio (lines 566-568): `target_load / load_cap`,
inverted when above `1`. -/
def candRatio (target_load load_cap : ℚ) : ℚ :=
  let ratio := target_load / load_cap
  if ratio > 1 then 1 / ratio else ratio

/-- The initial best ratio for the instance's current cell
(lines 553-555). -/
def initRatio (target_load load_cap : ℚ) : ℚ :=
  if target_load < load_cap then target_load / load_cap
  else load_cap / target_load

/-- The acceptance condition of the equivalent-cell loop (lines
573-586).  C++ groups it as `is_buf_inv ? (A1 || A2) : (B &&
(!revisiting_inst || target_load > best_load))`: the conditional
operator binds more loosely than `&&`, so the multiple-output upsize
restriction belongs to the third operand only. -/
def acceptCand (is_buf_inv revisiting : Bool) (best : BestCell)
    (ratio delay target_load : ℚ) : Bool :=
  if is_buf_inv then
    (decide (delay < best.delay) && decide (ratio > best.ratio * (9/10)))
      || (decide (ratio > best.ratio) && decide (delay < best.delay * (11/10)))
  else
    decide (ratio > best.ratio)
      && (!revisiting || decide (target_load > best.load))

/-- One iteration of the equivalent-cell loop (lines 562-593); the
candidate's local `ratio` is `candRatio c.target_load load_cap`. -/
def chooseStep (is_buf_inv revisiting : Bool) (load_cap : ℚ)
    (best : BestCell) (c : SizeCand) : BestCell :=
  if c.dont_use then best
  else if acceptCand is_buf_inv revisiting best
      (candRatio c.target_load load_cap) c.delay c.target_load then
    ⟨c.id, c.target_load, candRatio c.target_load load_cap, c.delay⟩
  else best

/-- The whole equivalent-cell loop. -/
def chooseBestCell (is_buf_inv revisiting : Bool) (load_cap : ℚ)
    (best : BestCell) (cands : List SizeCand) : BestCell :=
  cands.foldl (chooseStep is_buf_inv revisiting load_cap) best

/-- C3 counterexample: a buffer/inverter instance being revisited
(`is_buf_inv = true`, `revisiting = true`) accepts a candidate whose
target load `5` is smaller than the best target load `10`: the upsize
restriction does not apply on the buffer/inverter branch of the
conditional. -/
theorem multi_output_restriction_bufinv_cex :
    chooseBestCell true true 10 ⟨0, 10, 1/2, 2⟩ [⟨1, 5, 1, false⟩]
      = ⟨1, 5, 1/2, 1⟩ ∧ ¬((5 : ℚ) > 10) := by
  constructor
  · norm_num [chooseBestCell, chooseStep, candRatio, acceptCand]
  · norm_num

/-- C3 (amended): the multiple-output upsize restriction — a candidate
replaces the current best only if its target load is strictly greater —
applies exactly when the instance's cell is NOT a buffer/inverter: for
`is_buf_inv = false` and `revisiting = true` every accepted candidate
upsizes (so the fold never decreases the best target load), while for
`is_buf_inv = true` acceptance is independent of the revisiting flag. -/
theorem multi_output_restriction_nonbuf_only :
    (∀ (best : BestCell) (ratio delay target_load : ℚ),
        acceptCand false true best ratio delay target_load = true →
        target_load > best.load) ∧
    (∀ (revisiting revisiting' : Bool) (best : BestCell)
        (ratio delay target_load : ℚ),
        acceptCand true revisiting best ratio delay target_load
          = acceptCand true revisiting' best ratio delay target_load) ∧
    (∀ (load_cap : ℚ) (best : BestCell) (cands : List SizeCand),
        best.load ≤ (chooseBestCell false true load_cap best cands).load) := by
  have haccept : ∀ (best : BestCell) (ratio delay target_load : ℚ),
      acceptCand false true best ratio delay target_load = true →
      target_load > best.load := by
    intro best ratio delay target_load h
    simp only [acceptCand, if_neg (Bool.false_ne_true), Bool.not_true,
      Bool.false_or, Bool.and_eq_true, decide_eq_true_eq] at h
    exact h.2
  refine ⟨haccept, fun _ _ _ _ _ _ => rfl, ?_⟩
  intro load_cap best cands
  induction cands generalizing best with
  | nil => exact le_refl _
  | cons c cands ih =>
    refine le_trans ?_ (ih (chooseStep false true load_cap best c))
    unfold chooseStep
    split_ifs with h1 h2
    · exact le_refl _
    · exact le_of_lt (haccept best _ c.delay c.target_load h2)
    · exact le_refl _

/-- Concrete check of `multi_output_restriction_nonbuf_only`: a
non-buffer revisited instance accepting a candidate with target load
`12` against best load `10` indeed upsizes. -/
theorem multi_output_restriction_nonbuf_only_witness : (12 : ℚ) > 10 :=
  multi_output_restriction_nonbuf_only.1 ⟨0, 10, 1/2, 0⟩ (3/5) 0 12
    (by norm_num [acceptCand])

/-! ### Hold repair (`Resizer::repairHoldPass`, lines 1277-1337, and
`Resizer::makeHoldDelay`, lines 1394-1446) -/

/-- The 2×2 rise/fall × min/max slack matrix (`Slacks`) of a vertex. -/
structure Slacks where
  riseMin : ℚ
  riseMax : ℚ
  fallMin : ℚ
  fallMax : ℚ
deriving DecidableEq, Repr

/-- `Resizer::holdSlack` (lines 1480-1485). -/
def holdSlack (s : Slacks) : ℚ := min s.riseMin s.fallMin

/-- `Resizer::setupSlack` (lines 1487-1492). -/
def setupSlack (s : Slacks) : ℚ := min s.riseMax s.fallMax

/-- `Resizer::slackGap` (lines 1463-1470). -/
def slackGap (s : Slacks) : ℚ :=
  min (s.riseMax - s.riseMin) (s.fallMax - s.fallMin)

/-- The timer library's `INF` float constant (`1e+30`). -/
def INFq : ℚ := 10 ^ 30

/-- The per-load `delay` of `Resizer::repairHoldPass` (lines
1309-1311): `-hold_slack`, capped by the setup slack unless setup
violations are allowed. -/
def allowedDelay (allow_setup_violations : Bool) (s : Slacks) : ℚ :=
  if allow_setup_violations then -(holdSlack s)
  else min (-(holdSlack s)) (setupSlack s)

/-- The per-driver load scan of `Resizer::repairHoldPass` (lines
1298-1317): over the driver's fanout loads, keep those with negative
hold slack whose allowed delay is positive.  The local
`Slack buffer_delay = INF` (line 1300) SHADOWS the function parameter
`float buffer_delay` and accumulates the minimum allowed delay.
Returns the shadowed minimum and the number of collected load pins. -/
def holdLoadScan (allow_setup_violations : Bool) (loads : List Slacks) :
    ℚ × Nat :=
  loads.foldl
    (fun acc s =>
      if holdSlack s < 0 then
        if allowedDelay allow_setup_violations s > 0 then
          (min acc.1 (allowedDelay allow_setup_violations s), acc.2 + 1)
        else acc
      else acc)
    (INFq, 0)

/-- Line 1319 as compiled: `int buffer_count = std::ceil(buffer_delay /
buffer_delay)` — both occurrences resolve to the shadowed local
minimum. `0` when no load pin was collected (no `makeHoldDelay` call). -/
def holdBufferCount (allow_setup_violations : Bool)
    (loads : List Slacks) : Nat :=
  if (holdLoadScan allow_setup_violations loads).2 ≠ 0 then
    (⌈(holdLoadScan allow_setup_violations loads).1
        / (holdLoadScan allow_setup_violations loads).1⌉).toNat
  else 0

/-- Modelled from the spec: the buffer count the spec prescribes for
`makeHoldDelay` — `ceil(D / buffer_self_delay)`, dividing the smallest
positive allowed delay `D` by the OUTER `buffer_delay` parameter (the
buffer cell's self delay, `Resizer::bufferDelay(buffer_cell)`). -/
def intendedHoldBufferCount (buffer_self_delay D : ℚ) : Nat :=
  (⌈D / buffer_self_delay⌉).toNat

/-- `Resizer::makeHoldDelay` buffer chain (lines 1415-1434): buffer `i`
takes its input from net `i` and drives net `i+1` (net `0` being the
driver's net); exactly `buffer_count` buffers are created in series. -/
def makeHoldDelayChain (buffer_count : Nat) : List (Nat × Nat) :=
  (List.range buffer_count).map (fun i => (i, i + 1))

theorem holdLoadScan_fst_pos (allow : Bool) (loads : List Slacks) :
    0 < (holdLoadScan allow loads).1 := by
  unfold holdLoadScan
  have h : ∀ (init : ℚ × Nat), 0 < init.1 →
      0 < (loads.foldl
        (fun acc s =>
          if holdSlack s < 0 then
            if allowedDelay allow s > 0 then
              (min acc.1 (allowedDelay allow s), acc.2 + 1)
            else acc
          else acc) init).1 := by
    induction loads with
    | nil => intro init h; exact h
    | cons s loads ih =>
      intro init h
      simp only [List.foldl_cons]
      apply ih
      dsimp only
      split_ifs with h1 h2
      · exact lt_min h h2
      · exact h
      · exact h
  exact h (INFq, 0) (by norm_num [INFq])

/-- C1: the hold-repair buffer count is computed from the shadowed
local `buffer_delay`, so every `makeHoldDelay` call inserts exactly one
buffer — never `ceil(D / buffer_self_delay)`.  At the spec's S5
endpoint (hold slack `-3`, setup slack `+10`, buffer self delay `1`,
`allow_setup_violations = false`) the smallest allowed delay is `3`,
the spec prescribes `3` buffers, and the code inserts `1`. -/
theorem hold_buffer_count_shadowed_eval :
    (∀ (allow : Bool) (loads : List Slacks),
        holdBufferCount allow loads
          = if (holdLoadScan allow loads).2 = 0 then 0 else 1) ∧
    holdLoadScan false [⟨-3, 10, -3, 10⟩] = (3, 1) ∧
    holdBufferCount false [⟨-3, 10, -3, 10⟩] = 1 ∧
    (makeHoldDelayChain (holdBufferCount false [⟨-3, 10, -3, 10⟩])).length
      = 1 ∧
    intendedHoldBufferCount 1 3 = 3 := by
  have hscan : holdLoadScan false [⟨-3, 10, -3, 10⟩] = (3, 1) := by
    unfold holdLoadScan
    simp only [List.foldl_cons, List.foldl_nil]
    norm_num [holdSlack, setupSlack, allowedDelay, INFq]
  have hcount : ∀ (allow : Bool) (loads : List Slacks),
      holdBufferCount allow loads
        = if (holdLoadScan allow loads).2 = 0 then 0 else 1 := by
    intro allow loads
    unfold holdBufferCount
    have hpos := holdLoadScan_fst_pos allow loads
    have hne : (holdLoadScan allow loads).1 ≠ 0 := ne_of_gt hpos
    rw [div_self hne]
    by_cases hz : (holdLoadScan allow loads).2 = 0
    · rw [if_neg (not_not_intro hz), if_pos hz]
    · rw [if_pos hz, if_neg hz]
      norm_num
  refine ⟨hcount, hscan, ?_, ?_, ?_⟩
  · rw [hcount, hscan]
    norm_num
  · rw [hcount, hscan]
    norm_num [makeHoldDelayChain]
  · unfold intendedHoldBufferCount
    norm_num
    rfl

/-! ### Parasitic estimator (`Resizer::estimateWireParasitic`,
lines 944-1000) -/

/-- Wire RC constants per meter, signal and clock (`wire_res_`,
`wire_cap_`, `wire_clk_res_`, `wire_clk_cap_`). -/
structure WireRC where
  wire_res : ℚ
  wire_cap : ℚ
  wire_clk_res : ℚ
  wire_clk_cap : ℚ
deriving DecidableEq, Repr

/-- The parasitic element built for one Steiner branch. -/
inductive BranchParasitic where
  /-- The 1 mΩ connectivity resistor for zero-length branches. -/
  | shortingRes (res : ℚ)
  /-- π-model: half of the wire cap at each endpoint and a series
  resistance. -/
  | piModel (cap_half : ℚ) (res : ℚ)
deriving DecidableEq, Repr

/-- The per-branch construction of `estimateWireParasitic` (lines
957, 970-989): `bool is_clk = !sta_->isClock(net)`, then the branch
gets a 1 mΩ resistor when its length is zero, else a π-model using
`is_clk ? wire_clk_cap_ : wire_cap_` and `is_clk ? wire_clk_res_ :
wire_res_`.  `isClockNet` is the TIMER's `isClock(net)`; `nodesDiffer`
is `n1 != n2`; `wire_length` is in meters. -/
def branchParasitic (rc : WireRC) (isClockNet : Bool)
    (nodesDiffer : Bool) (wire_length : ℚ) : Option BranchParasitic :=
  if nodesDiffer then
    if wire_length = 0 then some (.shortingRes (1 / 1000))
    else
      let is_clk := !isClockNet
      let wire_cap := wire_length
        * (if is_clk then rc.wire_clk_cap else rc.wire_cap)
      let wire_res := wire_length
        * (if is_clk then rc.wire_clk_res else rc.wire_res)
      some (.piModel (wire_cap / 2) wire_res)
  else none

/-- Modelled from the spec: "insert a π-model: cap `w·length/2` on each
endpoint plus a series resistor `r·length`, using clock RC for clock
nets and signal RC otherwise" — i.e. choosing by the direct
`isClock(net)` predicate. -/
def branchParasiticSpec (rc : WireRC) (isClockNet : Bool)
    (nodesDiffer : Bool) (wire_length : ℚ) : Option BranchParasitic :=
  if nodesDiffer then
    if wire_length = 0 then some (.shortingRes (1 / 1000))
    else
      let wire_cap := wire_length
        * (if isClockNet then rc.wire_clk_cap else rc.wire_cap)
      let wire_res := wire_length
        * (if isClockNet then rc.wire_clk_res else rc.wire_res)
      some (.piModel (wire_cap / 2) wire_res)
  else none

/-- C2: the code's branch parasitic equals the spec's with the clock
predicate INVERTED (`is_clk = !sta_->isClock(net)`): on a clock net
with RC ⟨1, 2, 30, 40⟩ and a 5 m branch, the code builds the π-model
from the signal constants (cap 5·2/2, res 5·1), where the spec
prescribes the clock constants (cap 5·40/2, res 5·30). -/
theorem branch_rc_selection_inverted_eval :
    (∀ (rc : WireRC) (isClockNet nodesDiffer : Bool) (len : ℚ),
        branchParasitic rc isClockNet nodesDiffer len
          = branchParasiticSpec rc (!isClockNet) nodesDiffer len) ∧
    branchParasitic ⟨1, 2, 30, 40⟩ true true 5 = some (.piModel 5 5) ∧
    branchParasiticSpec ⟨1, 2, 30, 40⟩ true true 5
      = some (.piModel 100 150) := by
  refine ⟨?_, ?_, ?_⟩
  · intro rc isClockNet nodesDiffer len
    cases isClockNet <;> rfl
  · norm_num [branchParasitic]
  · norm_num [branchParasiticSpec]

/-! ### Target-load model (`Resizer::findTargetLoads`,
`Resizer::findTargetLoad`, `Resizer::targetLoadCap`, lines 723-830) -/

/-- Initial bisection capacitance: 1 pF. -/
def capInit : ℚ := 1 / 10 ^ 12

/-- Bisection tolerance: 0.1 fF. -/
def capTol : ℚ := 1 / 10 ^ 16

/-- A timing arc: from/to transitions (`true` = rise) and, when
present, its gate timing model — the output slew as a function of
input slew and load capacitance. -/
structure TimingArcE where
  fromRise : Bool
  toRise : Bool
  model : Option (ℚ → ℚ → ℚ)

/-- A timing arc set: its role flags and its arcs. -/
structure ArcSetE where
  roleIsTimingCheck : Bool
  roleIsTristateDisable : Bool
  roleIsTristateEnable : Bool
  arcs : List TimingArcE

/-- A liberty cell as seen by the target-load search. -/
structure CellE where
  arcSets : List ArcSetE

/-- The bisection of `Resizer::findTargetLoad(cell, arc, in_slew,
out_slew)` (lines 805-827): start at 1 pF with a 1 pF step; on
overshoot back off and halve the step; stop when the step drops below
0.1 fF or the slew stops changing.  The C++ loop terminates only
through floating-point saturation, so the embedding carries fuel; no
claim below depends on the returned value. -/
def bisectTargetLoad (f : ℚ → ℚ) (out_slew : ℚ) :
    Nat → ℚ → ℚ → ℚ → ℚ
  | 0, load_cap, _, _ => load_cap
  | fuel + 1, load_cap, cap_step, prev_slew =>
    if cap_step > capTol then
      let arc_slew := f load_cap
      let load_cap1 := if arc_slew > out_slew then load_cap - cap_step
                       else load_cap
      let cap_step1 := if arc_slew > out_slew then cap_step / 2
                       else cap_step
      let load_cap2 := load_cap1 + cap_step1
      if arc_slew = prev_slew then load_cap2
      else bisectTargetLoad f out_slew fuel load_cap2 cap_step1 arc_slew
    else load_cap

/-- `Resizer::findTargetLoad(cell, arc, in_slew, out_slew)`: returns
`0.0` when the arc's model is not a gate timing model (line 829). -/
def findTargetLoadArc (arc : TimingArcE) (in_slew out_slew : ℚ) : ℚ :=
  match arc.model with
  | none => 0
  | some f => bisectTargetLoad (f in_slew) out_slew 200 capInit capInit 0

/-- One step of the per-cell accumulation (lines 771-781): add the
arc's target load into the bucket of its output transition.  The
accumulator holds `(sum, count)` for rise and fall. -/
def targetLoadAccum (slews : ℚ × ℚ) (acc : (ℚ × Nat) × (ℚ × Nat))
    (arc : TimingArcE) : (ℚ × Nat) × (ℚ × Nat) :=
  let in_slew := if arc.fromRise then slews.1 else slews.2
  let out_slew := if arc.toRise then slews.1 else slews.2
  let t := findTargetLoadArc arc in_slew out_slew
  if arc.toRise then ((acc.1.1 + t, acc.1.2 + 1), acc.2)
  else (acc.1, (acc.2.1 + t, acc.2.2 + 1))

/-- The arcs of the non-check, non-tristate arc sets of a cell
(the sets the loop of lines 765-783 does not skip). -/
def usableArcs (cell : CellE) : List TimingArcE :=
  ((cell.arcSets.filter (fun s => !s.roleIsTimingCheck
      && !s.roleIsTristateDisable && !s.roleIsTristateEnable)).map
    ArcSetE.arcs).flatten

/-- `Resizer::findTargetLoad(cell, slews)` (lines 757-795): accumulate
target loads per output transition over the usable arcs, then start
from `INF` and lower it to each nonempty bucket's mean. -/
def findTargetLoadCell (cell : CellE) (slews : ℚ × ℚ) : ℚ :=
  let acc := (usableArcs cell).foldl (targetLoadAccum slews) ((0, 0), (0, 0))
  let tl1 := if acc.1.2 ≠ 0 then min INFq (acc.1.1 / (acc.1.2 : ℚ))
             else INFq
  let tl2 := if acc.2.2 ≠ 0 then min tl1 (acc.2.1 / (acc.2.2 : ℚ))
             else tl1
  tl2

/-- `Resizer::findTargetLoads` over the cells of the resize libraries
(lines 726-755): `(*target_load_map_)[cell] = target_load` runs for
every cell, so every cell receives an entry. -/
def findTargetLoads (cells : List (Nat × CellE)) (slews : ℚ × ℚ) :
    List (Nat × ℚ) :=
  cells.map (fun c => (c.1, findTargetLoadCell c.2 slews))

/-- `Resizer::targetLoadCap` (lines 737-744): map lookup that leaves
`load_cap = 0.0` when the cell has no entry. -/
def targetLoadCap (map : List (Nat × ℚ)) (cell : Nat) : ℚ :=
  (map.lookup cell).getD 0

theorem targetLoadAccum_modelless (slews : ℚ × ℚ) (arcs : List TimingArcE) :
    ∀ (init : (ℚ × Nat) × (ℚ × Nat)), (∀ a ∈ arcs, a.model = none) →
      (arcs.foldl (targetLoadAccum slews) init).1.1 = init.1.1 ∧
      (arcs.foldl (targetLoadAccum slews) init).2.1 = init.2.1 ∧
      (arcs.foldl (targetLoadAccum slews) init).1.2
        + (arcs.foldl (targetLoadAccum slews) init).2.2
        = init.1.2 + init.2.2 + arcs.length := by
  induction arcs with
  | nil => intro init h; exact ⟨rfl, rfl, rfl⟩
  | cons a arcs ih =>
    intro init h
    have hm : a.model = none := h a (List.mem_cons_self a arcs)
    have harc : ∀ i o, findTargetLoadArc a i o = 0 := by
      intro i o
      unfold findTargetLoadArc
      rw [hm]
    simp only [List.foldl_cons, List.length_cons]
    obtain ⟨h1, h2, h3⟩ := ih (targetLoadAccum slews init a)
      (fun b hb => h b (List.mem_cons_of_mem a hb))
    cases ht : a.toRise
    case false =>
      have hstep : targetLoadAccum slews init a
          = (init.1, (init.2.1, init.2.2 + 1)) := by
        simp [targetLoadAccum, harc, ht]
      rw [hstep] at h1 h2 h3 ⊢
      dsimp only at h1 h2 h3 ⊢
      exact ⟨h1, h2, by omega⟩
    case true =>
      have hstep : targetLoadAccum slews init a
          = ((init.1.1, init.1.2 + 1), init.2) := by
        simp [targetLoadAccum, harc, ht]
      rw [hstep] at h1 h2 h3 ⊢
      dsimp only at h1 h2 h3 ⊢
      exact ⟨h1, h2, by omega⟩

/-- C6 counterexample: a cell with no timing arc sets at all still
receives an entry, but its value is `INF` (`1e30`), not `0`. -/
theorem target_load_no_arcs_inf_cex :
    findTargetLoadCell ⟨[]⟩ (0, 0) = INFq ∧ INFq ≠ 0 ∧
    findTargetLoads [(7, ⟨[]⟩)] (0, 0) = [(7, INFq)] := by
  refine ⟨rfl, by norm_num [INFq], rfl⟩

/-- C6 (amended): after `findTargetLoads`, every cell of every resize
library has a `TargetLoadMap` entry; a cell with no usable (non-check,
non-tristate) timing arcs receives the entry value `INF` (`1e30`),
while a cell whose usable arcs all lack gate timing models receives
`0`; either way the sizer reads the entry through the total lookup
`targetLoadCap` (defaulting to `0`), never an error. -/
theorem target_load_entries_spec :
    (∀ (cells : List (Nat × CellE)) (slews : ℚ × ℚ) (id : Nat) (c : CellE),
        (id, c) ∈ cells →
        (id, findTargetLoadCell c slews) ∈ findTargetLoads cells slews) ∧
    (∀ (c : CellE) (slews : ℚ × ℚ), usableArcs c = [] →
        findTargetLoadCell c slews = INFq) ∧
    (∀ (c : CellE) (slews : ℚ × ℚ), usableArcs c ≠ [] →
        (∀ a ∈ usableArcs c, a.model = none) →
        findTargetLoadCell c slews = 0) := by
  refine ⟨?_, ?_, ?_⟩
  · intro cells slews id c hc
    exact List.mem_map_of_mem _ hc
  · intro c slews h
    unfold findTargetLoadCell
    rw [h]
    simp
  · intro c slews hne hall
    obtain ⟨h1, h2, h3⟩ := targetLoadAccum_modelless slews (usableArcs c)
      ((0, 0), (0, 0)) hall
    have hlen : 0 < (usableArcs c).length := List.length_pos.mpr hne
    unfold findTargetLoadCell
    dsimp only
    generalize hacc : (usableArcs c).foldl (targetLoadAccum slews)
      ((0, 0), (0, 0)) = acc
    rw [hacc] at h1 h2 h3
    dsimp only at h1 h2 h3
    have hmin0 : min INFq (0 : ℚ) = 0 := min_eq_right (by norm_num [INFq])
    by_cases f0 : acc.2.2 = 0
    · have r0 : acc.1.2 ≠ 0 := by omega
      rw [if_neg (fun hcon => hcon f0), if_pos r0, h1, zero_div]
      exact hmin0
    · rw [if_pos f0, h2, zero_div]
      by_cases r0 : acc.1.2 = 0
      · rw [if_neg (fun hcon => hcon r0)]
        exact hmin0
      · rw [if_pos r0, h1, zero_div, hmin0]
        exact min_self 0

/-- Concrete check of `target_load_entries_spec`: a cell with one
usable arc set whose single arc lacks a gate timing model receives the
entry value `0`. -/
theorem target_load_entries_spec_witness :
    findTargetLoadCell ⟨[⟨false, false, false, [⟨true, true, none⟩]⟩]⟩
      (0, 0) = 0 :=
  target_load_entries_spec.2.2
    ⟨[⟨false, false, false, [⟨true, true, none⟩]⟩]⟩ (0, 0)
    (by simp [usableArcs]) (by simp [usableArcs])

/-! ### Unique name generator (`Resizer::makeUniqueNetName`, lines
2272-2281, and `Resizer::makeUniqueInstName`, lines 2283-2299)

The names are rendered with `stringPrint`'s `%d`, i.e. decimal
`Nat.repr`; the injectivity of that rendering underpins both the
termination of the collision-retry loop and the distinctness of minted
net names. -/

theorem digitChar_injOn_lt10 :
    ∀ a < 10, ∀ b < 10, Nat.digitChar a = Nat.digitChar b → a = b := by
  decide

theorem map_digitChar_inj :
    ∀ (l1 l2 : List Nat), (∀ x ∈ l1, x < 10) → (∀ x ∈ l2, x < 10) →
      l1.map Nat.digitChar = l2.map Nat.digitChar → l1 = l2 := by
  intro l1
  induction l1 with
  | nil =>
    intro l2 _ _ h
    cases l2 with
    | nil => rfl
    | cons b bs => simp at h
  | cons a as ih =>
    intro l2 h1 h2 h
    cases l2 with
    | nil => simp at h
    | cons b bs =>
      simp only [List.map_cons, List.cons.injEq] at h
      have ha : a < 10 := h1 a (List.mem_cons_self a as)
      have hb : b < 10 := h2 b (List.mem_cons_self b bs)
      have hab : a = b := digitChar_injOn_lt10 a ha b hb h.1
      have htl : as = bs := ih bs
        (fun x hx => h1 x (List.mem_cons_of_mem a hx))
        (fun x hx => h2 x (List.mem_cons_of_mem b hx)) h.2
      rw [hab, htl]

theorem toDigitsCore_eq_digits (fuel : Nat) :
    ∀ (n : Nat) (acc : List Char), 0 < n → n < fuel →
      Nat.toDigitsCore 10 fuel n acc
        = ((Nat.digits 10 n).map Nat.digitChar).reverse ++ acc := by
  induction fuel with
  | zero => intro n acc _ h; omega
  | succ fuel ih =>
    intro n acc hn hlt
    rw [Nat.toDigitsCore]
    by_cases h10 : n / 10 = 0
    · have hn10 : n < 10 := (Nat.div_eq_zero_iff (by norm_num)).mp h10
      rw [if_pos h10, Nat.digits_of_lt 10 n (Nat.pos_iff_ne_zero.mp hn) hn10]
      simp [Nat.mod_eq_of_lt hn10]
    · have hnge : 10 ≤ n := by
        by_contra hcon
        exact h10 (Nat.div_eq_of_lt (by omega))
      have hrec := ih (n / 10) (Nat.digitChar (n % 10) :: acc)
        (Nat.pos_of_ne_zero h10)
        (by
          have : n / 10 < n := Nat.div_lt_self hn (by norm_num)
          omega)
      rw [if_neg h10, hrec,
        Nat.digits_def' (b := 10) (by norm_num) hn]
      simp

theorem natRepr_eq_digits (n : Nat) (hn : 0 < n) :
    Nat.repr n = (((Nat.digits 10 n).map Nat.digitChar).reverse).asString := by
  unfold Nat.repr Nat.toDigits
  rw [toDigitsCore_eq_digits (n + 1) n [] hn (Nat.lt_succ_self n)]
  simp

theorem natRepr_injective : Function.Injective Nat.repr := by
  intro n m h
  have hdata : (Nat.repr n).data = (Nat.repr m).data := congrArg String.data h
  have key : ∀ a b : Nat, 0 < a → (Nat.repr a).data = (Nat.repr b).data →
      0 < b → a = b := by
    intro a b ha hab hb
    rw [natRepr_eq_digits a ha, natRepr_eq_digits b hb] at hab
    have hlist : ((Nat.digits 10 a).map Nat.digitChar).reverse
        = ((Nat.digits 10 b).map Nat.digitChar).reverse := hab
    have hmap : (Nat.digits 10 a).map Nat.digitChar
        = (Nat.digits 10 b).map Nat.digitChar :=
      List.reverse_injective hlist
    have hdig : Nat.digits 10 a = Nat.digits 10 b :=
      map_digitChar_inj _ _
        (fun x hx => Nat.digits_lt_base (by norm_num) hx)
        (fun x hx => Nat.digits_lt_base (by norm_num) hx) hmap
    calc a = Nat.ofDigits 10 (Nat.digits 10 a) := (Nat.ofDigits_digits 10 a).symm
      _ = Nat.ofDigits 10 (Nat.digits 10 b) := by rw [hdig]
      _ = b := Nat.ofDigits_digits 10 b
  have zero_case : ∀ b : Nat, (Nat.repr 0).data = (Nat.repr b).data → b = 0 := by
    intro b h0b
    by_contra hb
    have hbpos : 0 < b := Nat.pos_of_ne_zero hb
    rw [natRepr_eq_digits b hbpos] at h0b
    have h0 : (Nat.repr 0).data = ['0'] := rfl
    rw [h0] at h0b
    have hmap : (Nat.digits 10 b).map Nat.digitChar = ['0'] := by
      have := congrArg List.reverse h0b
      simpa [List.asString] using this.symm
    have hdig : Nat.digits 10 b = [0] := by
      have h0ch : ([0] : List Nat).map Nat.digitChar = ['0'] := rfl
      exact map_digitChar_inj _ _
        (fun x hx => Nat.digits_lt_base (by norm_num) hx)
        (by intro x hx; simp at hx; omega) (hmap.trans h0ch.symm)
    have : b = Nat.ofDigits 10 [0] := by
      rw [← hdig, Nat.ofDigits_digits]
    simp [Nat.ofDigits] at this
    exact hb this
  rcases Nat.eq_zero_or_pos n with hn | hn
  · subst hn
    exact (zero_case m hdata).symm
  · rcases Nat.eq_zero_or_pos m with hm | hm
    · subst hm
      exact zero_case n hdata.symm
    · exact key n m hn hdata hm

/-- `stringPrint(node_name, "net%d", n)` (line 2278). -/
def netName (n : Nat) : String := "net" ++ Nat.repr n

/-- `stringPrint(inst_name, underscore ? "%s_%d" : "%s%d", base, n)`
(lines 2295-2296). -/
def instNameStr (base : String) (underscore : Bool) (n : Nat) : String :=
  base ++ (if underscore then "_" else "") ++ Nat.repr n

/-- The do/while collision-retry loop shared by both minting functions:
render the current counter, post-increment it, retry while the netlist
reports the name taken.  The C++ loop is unbounded; the embedding
carries fuel, and `mintLoop_some_of_fresh` with `exists_fresh_name`
shows fuel `existing.length + 1` always suffices. -/
def mintLoop (render : Nat → String) (existing : List String) :
    Nat → Nat → Option (String × Nat)
  | 0, _ => none
  | fuel + 1, n =>
    if render n ∈ existing then mintLoop render existing fuel (n + 1)
    else some (render n, n + 1)

/-- `Resizer::makeUniqueNetName` (lines 2272-2281): the counter starts
at `idx`; the pair holds the returned name and the counter after the
call. -/
def makeUniqueNetName (existing : List String) (idx : Nat) :
    Option (String × Nat) :=
  mintLoop netName existing (existing.length + 1) idx

/-- `Resizer::makeUniqueInstName` (lines 2289-2299). -/
def makeUniqueInstName (existing : List String) (base : String)
    (underscore : Bool) (idx : Nat) : Option (String × Nat) :=
  mintLoop (instNameStr base underscore) existing (existing.length + 1) idx

/-- A sequence of instance mints against a fixed netlist, threading the
counter exactly as the member `unique_inst_index_` is threaded between
calls, and collecting the returned names. -/
def mintInstSeq (existing : List String) :
    List (String × Bool) → Nat → List String
  | [], _ => []
  | b :: bs, idx =>
    match makeUniqueInstName existing b.1 b.2 idx with
    | some (nm, idx') => nm :: mintInstSeq existing bs idx'
    | none => []

theorem mintLoop_spec (render : Nat → String) (existing : List String) :
    ∀ (fuel n : Nat) (name : String) (n' : Nat),
      mintLoop render existing fuel n = some (name, n') →
      ∃ k, k < fuel ∧ name = render (n + k) ∧ n' = n + k + 1 ∧
        render (n + k) ∉ existing := by
  intro fuel
  induction fuel with
  | zero => intro n name n' h; simp [mintLoop] at h
  | succ fuel ih =>
    intro n name n' h
    rw [mintLoop] at h
    by_cases hmem : render n ∈ existing
    · rw [if_pos hmem] at h
      obtain ⟨k, hk, hname, hn', hfresh⟩ := ih (n + 1) name n' h
      refine ⟨k + 1, by omega, ?_, by omega, ?_⟩
      · rw [hname]
        congr 1
        omega
      · have : n + 1 + k = n + (k + 1) := by omega
        rwa [this] at hfresh
    · rw [if_neg hmem] at h
      obtain ⟨h1, h2⟩ := Prod.mk.injEq .. ▸ Option.some.injEq .. ▸ h
      exact ⟨0, Nat.succ_pos fuel, by rw [← h1, Nat.add_zero],
        by omega, by rwa [Nat.add_zero]⟩

theorem mintLoop_some_of_fresh (render : Nat → String)
    (existing : List String) :
    ∀ (fuel n : Nat), (∃ k < fuel, render (n + k) ∉ existing) →
      ∃ out, mintLoop render existing fuel n = some out := by
  intro fuel
  induction fuel with
  | zero => intro n h; omega
  | succ fuel ih =>
    intro n h
    rw [mintLoop]
    by_cases hmem : render n ∈ existing
    · rw [if_pos hmem]
      apply ih
      obtain ⟨k, hk, hfresh⟩ := h
      cases k with
      | zero => exact absurd hmem (by simpa using hfresh)
      | succ k =>
        refine ⟨k, by omega, ?_⟩
        have : n + 1 + k = n + (k + 1) := by omega
        rwa [this]
    · rw [if_neg hmem]
      exact ⟨_, rfl⟩

theorem exists_fresh_name (render : Nat → String)
    (hinj : Function.Injective render) (existing : List String) (n : Nat) :
    ∃ k ≤ existing.length, render (n + k) ∉ existing := by
  by_contra hcon
  push_neg at hcon
  have hsub : ∀ a ∈ Finset.range (existing.length + 1),
      render (n + a) ∈ existing.toFinset := by
    intro a ha
    rw [List.mem_toFinset]
    exact hcon a (by simpa using Nat.lt_succ_iff.mp (Finset.mem_range.mp ha))
  have hinj2 : Set.InjOn (fun a => render (n + a))
      (Finset.range (existing.length + 1)) := by
    intro a _ b _ hab
    have := hinj hab
    omega
  have hcard := Finset.card_le_card_of_injOn _ hsub hinj2
  rw [Finset.card_range, List.card_toFinset] at hcard
  have hdedup : existing.dedup.length ≤ existing.length :=
    existing.dedup_sublist.length_le
  omega

theorem netName_injective : Function.Injective netName := by
  intro a b h
  apply natRepr_injective
  apply String.ext
  have := congrArg String.data h
  simpa [netName] using this

theorem instNameStr_injective (base : String) (u : Bool) :
    Function.Injective (instNameStr base u) := by
  intro a b h
  apply natRepr_injective
  apply String.ext
  have := congrArg String.data h
  simpa [instNameStr] using this

/-- C4 (amended): every mint succeeds and returns a name — `"net{k}"`
resp. `"{base}{k}"`/`"{base}_{k}"` — absent from the netlist at the
moment of return, with the counter advanced strictly past `k`; any two
NET names minted by successive calls are distinct even if the nets were
never created; an INSTANCE name minted later is distinct from any name
present in the netlist at its mint time (in particular from an earlier
minted name that was actually used), but two instance mints are NOT
distinct in general (see the counterexample). -/
theorem unique_name_minting_spec :
    (∀ (existing : List String) (idx : Nat),
      ∃ k, idx ≤ k ∧
        makeUniqueNetName existing idx = some (netName k, k + 1) ∧
        netName k ∉ existing) ∧
    (∀ (existing : List String) (base : String) (u : Bool) (idx : Nat),
      ∃ k, idx ≤ k ∧
        makeUniqueInstName existing base u idx
          = some (instNameStr base u k, k + 1) ∧
        instNameStr base u k ∉ existing) ∧
    (∀ (ex1 ex2 : List String) (idx1 idx2 n1 n2 : Nat) (nm1 nm2 : String),
      makeUniqueNetName ex1 idx1 = some (nm1, n1) →
      n1 ≤ idx2 →
      makeUniqueNetName ex2 idx2 = some (nm2, n2) →
      nm1 ≠ nm2) ∧
    (∀ (ex2 : List String) (base : String) (u : Bool) (idx2 n2 : Nat)
        (nm1 nm2 : String),
      nm1 ∈ ex2 →
      makeUniqueInstName ex2 base u idx2 = some (nm2, n2) →
      nm2 ≠ nm1) := by
  have hnet : ∀ (existing : List String) (idx : Nat),
      ∃ k, idx ≤ k ∧
        makeUniqueNetName existing idx = some (netName k, k + 1) ∧
        netName k ∉ existing := by
    intro existing idx
    obtain ⟨kf, hkf, hfresh⟩ := exists_fresh_name netName netName_injective
      existing idx
    obtain ⟨out, hout⟩ := mintLoop_some_of_fresh netName existing
      (existing.length + 1) idx ⟨kf, by omega, hfresh⟩
    obtain ⟨k0, _, hname, hn', hfresh0⟩ :=
      mintLoop_spec netName existing (existing.length + 1) idx out.1 out.2
      (by rwa [← Prod.mk.eta (p := out)] at hout)
    refine ⟨idx + k0, by omega, ?_, hfresh0⟩
    rw [makeUniqueNetName, hout, ← Prod.mk.eta (p := out), hname, hn']
  have hinst : ∀ (existing : List String) (base : String) (u : Bool)
      (idx : Nat),
      ∃ k, idx ≤ k ∧
        makeUniqueInstName existing base u idx
          = some (instNameStr base u k, k + 1) ∧
        instNameStr base u k ∉ existing := by
    intro existing base u idx
    obtain ⟨kf, hkf, hfresh⟩ := exists_fresh_name (instNameStr base u)
      (instNameStr_injective base u) existing idx
    obtain ⟨out, hout⟩ := mintLoop_some_of_fresh (instNameStr base u) existing
      (existing.length + 1) idx ⟨kf, by omega, hfresh⟩
    obtain ⟨k0, _, hname, hn', hfresh0⟩ :=
      mintLoop_spec (instNameStr base u) existing (existing.length + 1) idx
      out.1 out.2 (by rwa [← Prod.mk.eta (p := out)] at hout)
    refine ⟨idx + k0, by omega, ?_, hfresh0⟩
    rw [makeUniqueInstName, hout, ← Prod.mk.eta (p := out), hname, hn']
  refine ⟨hnet, hinst, ?_, ?_⟩
  · intro ex1 ex2 idx1 idx2 n1 n2 nm1 nm2 h1 h12 h2
    obtain ⟨k1, hk1a, hname1, hn1, _⟩ :=
      mintLoop_spec netName ex1 (ex1.length + 1) idx1 nm1 n1 h1
    obtain ⟨k2, hk2a, hname2, hn2, _⟩ :=
      mintLoop_spec netName ex2 (ex2.length + 1) idx2 nm2 n2 h2
    rw [hname1, hname2]
    intro heq
    have := netName_injective heq
    omega
  · intro ex2 base u idx2 n2 nm1 nm2 hmem h2 heq
    obtain ⟨k2, _, hname2, _, hfresh2⟩ :=
      mintLoop_spec (instNameStr base u) ex2 (ex2.length + 1) idx2 nm2 n2 h2
    rw [hname2] at heq
    rw [heq] at hfresh2
    exact hfresh2 hmem

/-- Concrete check of `unique_name_minting_spec`: the names of two
successive net mints against an empty netlist ("net1" then "net2") are
distinct. -/
theorem unique_name_minting_spec_witness : ("net1" : String) ≠ "net2" :=
  unique_name_minting_spec.2.2.1 [] [] 1 2 2 3 "net1" "net2"
    (by decide) (by omega) (by decide)

/-- C4 counterexample: twelve instance mints against a fixed empty
netlist (no instances created between mints) return `"input12"` twice —
once for base `"input1"` at counter `2` and once for base `"input"` at
counter `12` — so two minted-and-resolved instance names can collide. -/
theorem inst_name_mint_collision_cex :
    (mintInstSeq [] [("x", false), ("input1", false), ("y", false),
        ("y", false), ("y", false), ("y", false), ("y", false),
        ("y", false), ("y", false), ("y", false), ("y", false),
        ("input", false)] 1)[1]? = some "input12" ∧
    (mintInstSeq [] [("x", false), ("input1", false), ("y", false),
        ("y", false), ("y", false), ("y", false), ("y", false),
        ("y", false), ("y", false), ("y", false), ("y", false),
        ("input", false)] 1)[11]? = some "input12" := by
  constructor <;> decide

/-! ### Buffer removal (`Resizer::removeBuffers`, lines 228-268, and
`Resizer::hasTopLevelPort`, lines 1018-1032)

Pins and nets are numeric handles; a connection list maps each
connected pin to its net.  Well-formed netlists connect each pin at
most once (`KeyNodup`). -/

/-- A buffer instance: its input and output pin handles. -/
structure BufInst where
  inPin : Nat
  outPin : Nat
deriving DecidableEq, Repr

/-- The netlist state `removeBuffers` edits: pin→net connections, the
top-level port pins, and the buffer instances present. -/
structure RBNetlist where
  conns : List (Nat × Nat)
  portPins : List Nat
  bufs : List BufInst
deriving DecidableEq, Repr

/-- `Network::net(pin)`. -/
def netOf (conns : List (Nat × Nat)) (p : Nat) : Option Nat :=
  (conns.find? (fun c => c.1 = p)).map (·.2)

/-- The pins connected to a net (`NetPinIterator`). -/
def pinsOfNet (conns : List (Nat × Nat)) (n : Nat) : List Nat :=
  (conns.filter (fun c => c.2 = n)).map (·.1)

/-- `Resizer::hasTopLevelPort` (lines 1018-1032). -/
def hasTopLevelPort (nl : RBNetlist) (n : Nat) : Bool :=
  (pinsOfNet nl.conns n).any (fun p => nl.portPins.contains p)

/-- `Sta::disconnectPin`. -/
def disconnectPin (conns : List (Nat × Nat)) (p : Nat) :
    List (Nat × Nat) :=
  conns.filter (fun c => c.1 ≠ p)

/-- `Sta::disconnectPin` followed by `Sta::connectPin`, the pattern of
every rewiring site in `Resizer.cc`. -/
def reconnectPin (conns : List (Nat × Nat)) (p n : Nat) :
    List (Nat × Nat) :=
  (p, n) :: disconnectPin conns p

/-- `Sta::deleteNet`: the net is destroyed and pins still on it become
unconnected. -/
def deleteNetConns (conns : List (Nat × Nat)) (n : Nat) :
    List (Nat × Nat) :=
  conns.filter (fun c => c.2 ≠ n)

/-- `Sta::deleteInstance` on a buffer: its two pins disappear. -/
def deleteBufConns (conns : List (Nat × Nat)) (b : BufInst) :
    List (Nat × Nat) :=
  conns.filter (fun c => c.1 ≠ b.inPin && c.1 ≠ b.outPin)

/-- The rewiring loop of `removeBuffers` (lines 250-259): each listed
pin is disconnected and reconnected to `net`. -/
def reconnectPins (conns : List (Nat × Nat)) (pins : List Nat)
    (net : Nat) : List (Nat × Nat) :=
  pins.foldl (fun cs p => reconnectPin cs p net) conns

/-- One iteration of the `removeBuffers` instance loop (lines 238-265):
a buffer whose input and output nets contain no top-level port pin is
removed after every pin of its output net except its own output pin is
rewired onto the input net; only then are the output net and the
instance deleted.  Returns the new state and whether removal
happened. -/
def removeOneBuffer (nl : RBNetlist) (b : BufInst) : RBNetlist × Bool :=
  match netOf nl.conns b.inPin, netOf nl.conns b.outPin with
  | some input_net, some output_net =>
    if !(hasTopLevelPort nl input_net)
        && !(hasTopLevelPort nl output_net) then
      let loads := (pinsOfNet nl.conns output_net).filter (· ≠ b.outPin)
      let conns1 := reconnectPins nl.conns loads input_net
      let conns2 := deleteNetConns conns1 output_net
      let conns3 := deleteBufConns conns2 b
      (⟨conns3, nl.portPins, nl.bufs.filter (· ≠ b)⟩, true)
    else (nl, false)
  | _, _ => (nl, false)

/-- The instance loop of `Resizer::removeBuffers` over a buffer list,
counting removals. -/
def removeBuffersAux (st : RBNetlist) : List BufInst → RBNetlist × Nat
  | [] => (st, 0)
  | b :: bs =>
    ((removeBuffersAux (removeOneBuffer st b).1 bs).1,
     (if (removeOneBuffer st b).2 then 1 else 0)
       + (removeBuffersAux (removeOneBuffer st b).1 bs).2)

/-- `Resizer::removeBuffers`. -/
def removeBuffers (nl : RBNetlist) : RBNetlist × Nat :=
  removeBuffersAux nl nl.bufs

/-- Replay of the pass checking that every buffer actually removed had
distinct input and output nets at its removal time (the proviso of the
amended claim; it fails on buffer loops). -/
def sepAux (st : RBNetlist) : List BufInst → Bool
  | [] => true
  | b :: bs =>
    ((!(removeOneBuffer st b).2)
      || decide (netOf st.conns b.inPin ≠ netOf st.conns b.outPin))
    && sepAux (removeOneBuffer st b).1 bs

/-- The separation check for the whole pass. -/
def removeBuffersSeparated (nl : RBNetlist) : Bool :=
  sepAux nl nl.bufs

/-- Each pin is connected at most once. -/
def KeyNodup (conns : List (Nat × Nat)) : Prop :=
  (conns.map Prod.fst).Nodup

theorem netOf_eq_none_of_not_key (conns : List (Nat × Nat)) (q : Nat)
    (h : q ∉ conns.map Prod.fst) : netOf conns q = none := by
  unfold netOf
  rw [List.find?_eq_none.mpr]
  · rfl
  · intro c hc hq
    exact h (List.mem_map.mpr ⟨c, hc, by simpa using hq⟩)

theorem key_mem_of_netOf_some (conns : List (Nat × Nat)) (q m : Nat)
    (h : netOf conns q = some m) : q ∈ conns.map Prod.fst := by
  by_contra hq
  rw [netOf_eq_none_of_not_key conns q hq] at h
  exact Option.noConfusion h

theorem find?_filter_ne (p q : Nat) (hqp : q ≠ p) :
    ∀ (conns : List (Nat × Nat)),
      (conns.filter (fun c => c.1 ≠ p)).find? (fun c => c.1 = q)
        = conns.find? (fun c => c.1 = q) := by
  intro conns
  induction conns with
  | nil => rfl
  | cons c cs ih =>
    by_cases hcp : c.1 = p
    · rw [List.filter_cons_of_neg (by simp [hcp])]
      rw [List.find?_cons_of_neg _ (by simp [hcp]; omega)]
      exact ih
    · rw [List.filter_cons_of_pos (by simp [hcp])]
      by_cases hcq : c.1 = q
      · rw [List.find?_cons_of_pos _ (by simp [hcq]),
          List.find?_cons_of_pos _ (by simp [hcq])]
      · rw [List.find?_cons_of_neg _ (by simp [hcq]),
          List.find?_cons_of_neg _ (by simp [hcq])]
        exact ih

theorem netOf_reconnectPin (conns : List (Nat × Nat)) (p n q : Nat) :
    netOf (reconnectPin conns p n) q
      = if q = p then some n else netOf conns q := by
  unfold reconnectPin disconnectPin netOf
  by_cases hqp : q = p
  · subst hqp
    rw [if_pos rfl]
    rw [List.find?_cons_of_pos _ (by simp)]
    rfl
  · rw [if_neg hqp]
    rw [List.find?_cons_of_neg _ (by simp; omega)]
    rw [find?_filter_ne p q hqp conns]

theorem netOf_reconnectPins (pins : List Nat) :
    ∀ (conns : List (Nat × Nat)) (n q : Nat),
      netOf (reconnectPins conns pins n) q
        = if q ∈ pins then some n else netOf conns q := by
  induction pins with
  | nil =>
    intro conns n q
    simp [reconnectPins]
  | cons p ps ih =>
    intro conns n q
    have hstep : reconnectPins conns (p :: ps) n
        = reconnectPins (reconnectPin conns p n) ps n := rfl
    rw [hstep, ih, netOf_reconnectPin]
    by_cases hps : q ∈ ps
    · rw [if_pos hps, if_pos (List.mem_cons_of_mem p hps)]
    · rw [if_neg hps]
      by_cases hp : q = p
      · rw [if_pos hp, if_pos (by simp [hp])]
      · rw [if_neg hp, if_neg (by simp [hp, hps])]

theorem keys_filter_subset (conns : List (Nat × Nat))
    (pred : Nat × Nat → Bool) (q : Nat)
    (h : q ∈ (conns.filter pred).map Prod.fst) :
    q ∈ conns.map Prod.fst := by
  obtain ⟨c, hc, hq⟩ := List.mem_map.mp h
  exact List.mem_map.mpr ⟨c, List.mem_of_mem_filter hc, hq⟩

theorem netOf_deleteNetConns (conns : List (Nat × Nat)) (n q : Nat)
    (hnodup : KeyNodup conns) :
    netOf (deleteNetConns conns n) q
      = if netOf conns q = some n then none else netOf conns q := by
  induction conns with
  | nil => simp [deleteNetConns, netOf]
  | cons c cs ih =>
    have hnodup' : KeyNodup cs := (List.nodup_cons.mp hnodup).2
    have hkey : c.1 ∉ cs.map Prod.fst := (List.nodup_cons.mp hnodup).1
    by_cases hcq : c.1 = q
    · have hq : netOf (c :: cs) q = some c.2 := by
        unfold netOf
        rw [List.find?_cons_of_pos _ (by simp [hcq])]
        rfl
      by_cases hcn : c.2 = n
      · rw [hq, if_pos (by rw [hcn])]
        have hfilter : deleteNetConns (c :: cs) n = deleteNetConns cs n := by
          unfold deleteNetConns
          rw [List.filter_cons_of_neg (by simp [hcn])]
        rw [hfilter]
        apply netOf_eq_none_of_not_key
        intro hmem
        apply hkey
        rw [hcq]
        exact keys_filter_subset cs _ q hmem
      · have hfilter : deleteNetConns (c :: cs) n = c :: deleteNetConns cs n := by
          unfold deleteNetConns
          rw [List.filter_cons_of_pos (by simp [hcn])]
        have hq2 : netOf (c :: deleteNetConns cs n) q = some c.2 := by
          unfold netOf
          rw [List.find?_cons_of_pos _ (by simp [hcq])]
          rfl
        rw [hfilter, hq2, hq, if_neg (by simp [hcn])]
    · have hq : netOf (c :: cs) q = netOf cs q := by
        unfold netOf
        rw [List.find?_cons_of_neg _ (by simp [hcq])]
      rw [hq]
      by_cases hcn : c.2 = n
      · have hfilter : deleteNetConns (c :: cs) n = deleteNetConns cs n := by
          unfold deleteNetConns
          rw [List.filter_cons_of_neg (by simp [hcn])]
        rw [hfilter]
        exact ih hnodup'
      · have hfilter : deleteNetConns (c :: cs) n = c :: deleteNetConns cs n := by
          unfold deleteNetConns
          rw [List.filter_cons_of_pos (by simp [hcn])]
        have hq2 : netOf (c :: deleteNetConns cs n) q
            = netOf (deleteNetConns cs n) q := by
          unfold netOf
          rw [List.find?_cons_of_neg _ (by simp [hcq])]
        rw [hfilter, hq2]
        exact ih hnodup'

theorem netOf_deleteBufConns (conns : List (Nat × Nat)) (b : BufInst)
    (q : Nat) (hin : q ≠ b.inPin) (hout : q ≠ b.outPin) :
    netOf (deleteBufConns conns b) q = netOf conns q := by
  induction conns with
  | nil => rfl
  | cons c cs ih =>
    by_cases hc : (c.1 ≠ b.inPin && c.1 ≠ b.outPin : Bool) = true
    · have hcpair : ¬c.1 = b.inPin ∧ ¬c.1 = b.outPin := by simpa using hc
      have hfilter : deleteBufConns (c :: cs) b = c :: deleteBufConns cs b := by
        unfold deleteBufConns
        rw [List.filter_cons]
        simp [hcpair.1, hcpair.2]
      rw [hfilter]
      by_cases hcq : c.1 = q
      · unfold netOf
        rw [List.find?_cons_of_pos _ (by simp [hcq]),
          List.find?_cons_of_pos _ (by simp [hcq])]
      · unfold netOf
        rw [List.find?_cons_of_neg _ (by simp [hcq]),
          List.find?_cons_of_neg _ (by simp [hcq])]
        exact ih
    · have hc2 : c.1 = b.inPin ∨ c.1 = b.outPin := by
        by_contra hcon
        push_neg at hcon
        exact hc (by simp [hcon.1, hcon.2])
      have hcq : c.1 ≠ q := by
        rcases hc2 with h | h <;> rw [h] <;> omega
      have hfilter : deleteBufConns (c :: cs) b = deleteBufConns cs b := by
        unfold deleteBufConns
        rw [List.filter_cons]
        rcases hc2 with h | h <;> simp [h]
      have hq : netOf (c :: cs) q = netOf cs q := by
        unfold netOf
        rw [List.find?_cons_of_neg _ (by simp [hcq])]
      rw [hfilter, hq]
      exact ih

theorem mem_pinsOfNet_of_netOf (conns : List (Nat × Nat)) (p n : Nat)
    (h : netOf conns p = some n) : p ∈ pinsOfNet conns n := by
  unfold netOf at h
  obtain ⟨c, hfind⟩ := Option.map_eq_some'.mp h
  have hc : c ∈ conns := List.mem_of_find?_eq_some hfind.1
  have hp : c.1 = p := by simpa using List.find?_some hfind.1
  have hn : c.2 = n := hfind.2
  unfold pinsOfNet
  exact List.mem_map.mpr ⟨c, List.mem_filter.mpr ⟨hc, by simp [hn]⟩, hp⟩

theorem entry_unique_of_keyNodup (conns : List (Nat × Nat))
    (hnodup : KeyNodup conns) :
    ∀ c ∈ conns, ∀ c' ∈ conns, c.1 = c'.1 → c = c' := by
  induction conns with
  | nil => intro c hc; simp at hc
  | cons d ds ih =>
    have hkey : d.1 ∉ ds.map Prod.fst := (List.nodup_cons.mp hnodup).1
    have hnodup' : KeyNodup ds := (List.nodup_cons.mp hnodup).2
    intro c hc c' hc' hkeys
    rcases List.mem_cons.mp hc with hcd | hcds
    · rcases List.mem_cons.mp hc' with hcd' | hcds'
      · rw [hcd, hcd']
      · exfalso
        apply hkey
        exact List.mem_map.mpr ⟨c', hcds', by rw [← hkeys, hcd]⟩
    · rcases List.mem_cons.mp hc' with hcd' | hcds'
      · exfalso
        apply hkey
        exact List.mem_map.mpr ⟨c, hcds, by rw [hkeys, hcd']⟩
      · exact ih hnodup' c hcds c' hcds' hkeys

theorem netOf_of_mem_pinsOfNet (conns : List (Nat × Nat))
    (hnodup : KeyNodup conns) (p n : Nat) (h : p ∈ pinsOfNet conns n) :
    netOf conns p = some n := by
  obtain ⟨c, hcf, hcp⟩ := List.mem_map.mp h
  obtain ⟨hcmem, hcn⟩ := List.mem_filter.mp hcf
  have hcn' : c.2 = n := by simpa using hcn
  cases hfind : netOf conns p with
  | none =>
    exfalso
    unfold netOf at hfind
    rw [Option.map_eq_none'] at hfind
    have := List.find?_eq_none.mp hfind c hcmem
    simp [hcp] at this
  | some m =>
    unfold netOf at hfind
    obtain ⟨c', hfind', hm⟩ := Option.map_eq_some'.mp hfind
    have hc'mem : c' ∈ conns := List.mem_of_find?_eq_some hfind'
    have hc'p : c'.1 = p := by simpa using List.find?_some hfind'
    have : c = c' := entry_unique_of_keyNodup conns hnodup c hcmem c' hc'mem
      (by rw [hcp, hc'p])
    rw [← hcn', this, hm]

theorem keyNodup_filter (conns : List (Nat × Nat)) (pred : Nat × Nat → Bool)
    (h : KeyNodup conns) : KeyNodup (conns.filter pred) :=
  List.Nodup.sublist
    ((List.filter_sublist (p := pred) conns).map Prod.fst) h

theorem keyNodup_reconnectPin (conns : List (Nat × Nat)) (p n : Nat)
    (h : KeyNodup conns) : KeyNodup (reconnectPin conns p n) := by
  unfold KeyNodup reconnectPin
  rw [List.map_cons]
  apply List.nodup_cons.mpr
  refine ⟨?_, keyNodup_filter conns _ h⟩
  intro hmem
  obtain ⟨c, hc, hck⟩ := List.mem_map.mp hmem
  have hkeep := (List.mem_filter.mp hc).2
  simp at hkeep
  exact hkeep (by simpa using hck)

theorem keyNodup_reconnectPins (pins : List Nat) :
    ∀ (conns : List (Nat × Nat)) (n : Nat), KeyNodup conns →
      KeyNodup (reconnectPins conns pins n) := by
  induction pins with
  | nil => intro conns n h; exact h
  | cons p ps ih =>
    intro conns n h
    exact ih (reconnectPin conns p n) n (keyNodup_reconnectPin conns p n h)

theorem removeOneBuffer_none_left (nl : RBNetlist) (b : BufInst)
    (hi : netOf nl.conns b.inPin = none) :
    removeOneBuffer nl b = (nl, false) := by
  unfold removeOneBuffer
  rw [hi]

theorem removeOneBuffer_none_right (nl : RBNetlist) (b : BufInst)
    (ho : netOf nl.conns b.outPin = none) :
    removeOneBuffer nl b = (nl, false) := by
  unfold removeOneBuffer
  rw [ho]
  cases netOf nl.conns b.inPin <;> rfl

/-- Reduction of `removeOneBuffer` when both nets exist. -/
theorem removeOneBuffer_some_some (nl : RBNetlist) (b : BufInst)
    (i o : Nat) (hi : netOf nl.conns b.inPin = some i)
    (ho : netOf nl.conns b.outPin = some o) :
    removeOneBuffer nl b
      = if !(hasTopLevelPort nl i) && !(hasTopLevelPort nl o) then
          (⟨deleteBufConns (deleteNetConns
              (reconnectPins nl.conns
                ((pinsOfNet nl.conns o).filter (· ≠ b.outPin)) i) o) b,
            nl.portPins, nl.bufs.filter (· ≠ b)⟩, true)
        else (nl, false) := by
  unfold removeOneBuffer
  rw [hi, ho]

theorem removeOneBuffer_not_removed (nl : RBNetlist) (b : BufInst)
    (h : (removeOneBuffer nl b).2 = false) :
    (removeOneBuffer nl b).1 = nl := by
  cases hi : netOf nl.conns b.inPin with
  | none => rw [removeOneBuffer_none_left nl b hi]
  | some i =>
    cases ho : netOf nl.conns b.outPin with
    | none => rw [removeOneBuffer_none_right nl b ho]
    | some o =>
      rw [removeOneBuffer_some_some nl b i o hi ho] at h ⊢
      by_cases hg : (!(hasTopLevelPort nl i) && !(hasTopLevelPort nl o)
          : Bool) = true
      · rw [if_pos hg] at h
        simp at h
      · rw [if_neg hg]

theorem keyNodup_removeOneBuffer (nl : RBNetlist) (b : BufInst)
    (h : KeyNodup nl.conns) : KeyNodup (removeOneBuffer nl b).1.conns := by
  cases hi : netOf nl.conns b.inPin with
  | none => rw [removeOneBuffer_none_left nl b hi]; exact h
  | some i =>
    cases ho : netOf nl.conns b.outPin with
    | none => rw [removeOneBuffer_none_right nl b ho]; exact h
    | some o =>
      rw [removeOneBuffer_some_some nl b i o hi ho]
      by_cases hg : (!(hasTopLevelPort nl i) && !(hasTopLevelPort nl o)
          : Bool) = true
      · rw [if_pos hg]
        exact keyNodup_filter _ _ (keyNodup_filter _ _
          (keyNodup_reconnectPins _ nl.conns i h))
      · rw [if_neg hg]
        exact h

/-- Step characterization: when a buffer with distinct input/output
nets is removed, every other pin's connection is preserved, with pins
of the output net moved onto the input net. -/
theorem removeOneBuffer_rewire (nl : RBNetlist) (b : BufInst)
    (st' : RBNetlist) (i o : Nat) (hnodup : KeyNodup nl.conns)
    (hi : netOf nl.conns b.inPin = some i)
    (ho : netOf nl.conns b.outPin = some o)
    (hio : i ≠ o)
    (hrm : removeOneBuffer nl b = (st', true)) :
    ∀ p, p ≠ b.inPin → p ≠ b.outPin → ∀ m, netOf nl.conns p = some m →
      netOf st'.conns p = some (if m = o then i else m) := by
  intro p hpin hpout m hpm
  rw [removeOneBuffer_some_some nl b i o hi ho] at hrm
  by_cases hg : (!(hasTopLevelPort nl i) && !(hasTopLevelPort nl o)
      : Bool) = true
  · rw [if_pos hg] at hrm
    have hst : st' = ⟨deleteBufConns (deleteNetConns
        (reconnectPins nl.conns
          ((pinsOfNet nl.conns o).filter (· ≠ b.outPin)) i) o) b,
        nl.portPins, nl.bufs.filter (· ≠ b)⟩ :=
      (congrArg Prod.fst hrm).symm
    subst hst
    have hnodup1 : KeyNodup (reconnectPins nl.conns
        ((pinsOfNet nl.conns o).filter (· ≠ b.outPin)) i) :=
      keyNodup_reconnectPins _ nl.conns i hnodup
    rw [netOf_deleteBufConns _ b p hpin hpout,
      netOf_deleteNetConns _ o p hnodup1,
      netOf_reconnectPins _ nl.conns i p]
    by_cases hmo : m = o
    · have hloads : p ∈ (pinsOfNet nl.conns o).filter (· ≠ b.outPin) := by
        apply List.mem_filter.mpr
        refine ⟨?_, by simp [hpout]⟩
        exact mem_pinsOfNet_of_netOf nl.conns p o (hmo ▸ hpm)
      rw [if_pos hloads, if_neg (by simp [hio]), if_pos hmo]
    · have hloads : p ∉ (pinsOfNet nl.conns o).filter (· ≠ b.outPin) := by
        intro hmem
        have hpo : p ∈ pinsOfNet nl.conns o := (List.mem_filter.mp hmem).1
        have := netOf_of_mem_pinsOfNet nl.conns hnodup p o hpo
        rw [hpm] at this
        exact hmo (by simpa using this)
      rw [if_neg hloads, hpm, if_neg (by simp [hmo]), if_neg hmo]
  · rw [if_neg hg] at hrm
    have := congrArg Prod.snd hrm
    simp at this

/-- The guard: a buffer whose input or output net holds a top-level
port pin is not removed and the netlist is unchanged. -/
theorem removeOneBuffer_guard (nl : RBNetlist) (b : BufInst) (i o : Nat)
    (hi : netOf nl.conns b.inPin = some i)
    (ho : netOf nl.conns b.outPin = some o)
    (hport : hasTopLevelPort nl i = true ∨ hasTopLevelPort nl o = true) :
    removeOneBuffer nl b = (nl, false) := by
  rw [removeOneBuffer_some_some nl b i o hi ho]
  rw [if_neg]
  rcases hport with h | h <;> simp [h]

theorem removeBuffersAux_keeps (bs : List BufInst) :
    ∀ st : RBNetlist, KeyNodup st.conns → sepAux st bs = true →
      ∀ p, (∀ b ∈ bs, p ≠ b.inPin ∧ p ≠ b.outPin) →
      (netOf st.conns p).isSome = true →
      (netOf (removeBuffersAux st bs).1.conns p).isSome = true := by
  induction bs with
  | nil => intro st _ _ p _ h; exact h
  | cons b bs ih =>
    intro st hnodup hsep p hprot hsome
    unfold sepAux at hsep
    rw [Bool.and_eq_true] at hsep
    obtain ⟨hcond, hsep'⟩ := hsep
    have hnodup' := keyNodup_removeOneBuffer st b hnodup
    have hprot' : ∀ b' ∈ bs, p ≠ b'.inPin ∧ p ≠ b'.outPin :=
      fun b' hb' => hprot b' (List.mem_cons_of_mem b hb')
    have hb := hprot b (List.mem_cons_self b bs)
    have hsome' : (netOf (removeOneBuffer st b).1.conns p).isSome = true := by
      cases hrm : (removeOneBuffer st b).2 with
      | false =>
        rw [removeOneBuffer_not_removed st b hrm]
        exact hsome
      | true =>
        cases hm : netOf st.conns p with
        | none =>
          rw [hm] at hsome
          exact absurd hsome (by simp)
        | some m =>
          cases hi : netOf st.conns b.inPin with
          | none =>
            rw [removeOneBuffer_none_left st b hi] at hrm
            simp at hrm
          | some i =>
            cases ho : netOf st.conns b.outPin with
            | none =>
              rw [removeOneBuffer_none_right st b ho] at hrm
              simp at hrm
            | some o =>
              have hio : i ≠ o := by
                rw [hrm, hi, ho] at hcond
                simpa using hcond
              have heq : removeOneBuffer st b
                  = ((removeOneBuffer st b).1, true) := by
                rw [← hrm]
              have hres := removeOneBuffer_rewire st b
                (removeOneBuffer st b).1 i o hnodup hi ho hio heq
                p hb.1 hb.2 m hm
              rw [hres]
              rfl
    unfold removeBuffersAux
    exact ih (removeOneBuffer st b).1 hnodup' hsep' p hprot' hsome'

/-- C9 (amended): `removeBuffers` deletes a buffer only when neither
its input net nor its output net holds a top-level port pin; when a
buffer with DISTINCT input and output nets is removed, every pin of the
output net except the buffer's own output pin is reconnected to the
input net before the output net and the instance are deleted, and every
other pin keeps its net; consequently, over a whole pass in which every
removed buffer had distinct input and output nets (no buffer loops), no
formerly connected pin outside the removed buffers is left
disconnected. -/
theorem remove_buffers_spec :
    (∀ (nl : RBNetlist) (b : BufInst) (i o : Nat),
        netOf nl.conns b.inPin = some i →
        netOf nl.conns b.outPin = some o →
        (hasTopLevelPort nl i = true ∨ hasTopLevelPort nl o = true) →
        removeOneBuffer nl b = (nl, false)) ∧
    (∀ (nl : RBNetlist) (b : BufInst) (st' : RBNetlist) (i o : Nat),
        KeyNodup nl.conns →
        netOf nl.conns b.inPin = some i →
        netOf nl.conns b.outPin = some o →
        i ≠ o →
        removeOneBuffer nl b = (st', true) →
        ∀ p, p ≠ b.inPin → p ≠ b.outPin →
          (netOf nl.conns p = some o → netOf st'.conns p = some i) ∧
          (∀ m, netOf nl.conns p = some m → m ≠ o →
            netOf st'.conns p = some m)) ∧
    (∀ nl : RBNetlist, KeyNodup nl.conns →
        removeBuffersSeparated nl = true →
        ∀ p, (∀ b ∈ nl.bufs, p ≠ b.inPin ∧ p ≠ b.outPin) →
        (netOf nl.conns p).isSome = true →
        (netOf (removeBuffers nl).1.conns p).isSome = true) := by
  refine ⟨removeOneBuffer_guard, ?_, ?_⟩
  · intro nl b st' i o hnodup hi ho hio hrm p hpin hpout
    constructor
    · intro hpo
      have := removeOneBuffer_rewire nl b st' i o hnodup hi ho hio hrm
        p hpin hpout o hpo
      rwa [if_pos rfl] at this
    · intro m hpm hmo
      have := removeOneBuffer_rewire nl b st' i o hnodup hi ho hio hrm
        p hpin hpout m hpm
      rwa [if_neg hmo] at this
  · intro nl hnodup hsep p hprot hsome
    exact removeBuffersAux_keeps nl.bufs nl hnodup hsep p hprot hsome

/-- Concrete check of `remove_buffers_spec`: removing the buffer `1→2`
(input net `10`, output net `11`) leaves the former load pin `3`
connected (it moves to net `10`). -/
theorem remove_buffers_spec_witness :
    (netOf (removeBuffers
        ⟨[(1, 10), (2, 11), (3, 11)], [], [⟨1, 2⟩]⟩).1.conns 3).isSome
      = true :=
  remove_buffers_spec.2.2 ⟨[(1, 10), (2, 11), (3, 11)], [], [⟨1, 2⟩]⟩
    (by show ([(1, 10), (2, 11), (3, 11)].map
        (Prod.fst (α := Nat) (β := Nat))).Nodup
        decide)
    (by decide) 3 (by decide) (by decide)

/-- C9 counterexample: on a two-buffer combinational ring (buffer `1→2`
on nets `10→11`, buffer `3→4` on nets `11→10`) with an extra load pin
`5` on net `10`, `removeBuffers` removes both buffers and deletes net
`10` while pin `5` — formerly connected and not a pin of any removed
buffer — is left disconnected. -/
theorem remove_buffers_ring_cex :
    netOf ([(1, 10), (2, 11), (3, 11), (4, 10), (5, 10)]
        : List (Nat × Nat)) 5 = some 10 ∧
    (5 ≠ 1 ∧ 5 ≠ 2 ∧ 5 ≠ 3 ∧ 5 ≠ 4) ∧
    netOf (removeBuffers ⟨[(1, 10), (2, 11), (3, 11), (4, 10), (5, 10)],
        [], [⟨1, 2⟩, ⟨3, 4⟩]⟩).1.conns 5 = none := by
  refine ⟨by decide, by decide, by decide⟩

/-! ### `Resizer::bufferInputs` / `Resizer::bufferInput` (lines 350-407)

The pass iterates the top-level port pins; a pin that is an input, is
not a clock (`sta_->isClock(pin)`) and whose net is not special gets a
buffer: a fresh net and a fresh instance are minted, every pin of the
port's net other than the port itself is rewired onto the fresh net,
and the buffer's input/output pins are connected to the port's net and
the fresh net respectively.  Pin and net handles are numbered; minting
takes the next free handle (`nextPin` for the buffer's two pins,
`nextNet` for its output net), mirroring the fresh names of
`makeUniqueNetName`/`makeUniqueInstName`.  A port whose term has no net
is skipped (in the source such a pin would hand a null `Net *` to
`isSpecial`; top-level ports are always connected).  `makeInstance` is
assumed to succeed (the `if (buffer)` guard of line 386 taken). -/

/-- A top-level port pin as `bufferInputs` reads it: its pin handle,
its direction, the TIMER's clock flag for the pin, and its location. -/
structure PortE where
  pin : Nat
  isInput : Bool
  isClk : Bool
  loc : Pt
deriving DecidableEq, Repr

/-- A buffer inserted by `bufferInput`: the port it buffers, its fresh
input and output pins, the fresh net its output drives, and its placed
location. -/
structure InsertedBuf where
  port : Nat
  inPin : Nat
  outPin : Nat
  outNet : Nat
  loc : Pt
deriving DecidableEq, Repr

/-- The netlist state `bufferInputs` edits: pin→net connections, the
nets `isSpecial` reports, the next free pin and net handles, the
buffers inserted so far and `inserted_buffer_count_`. -/
structure BINetlist where
  conns : List (Nat × Nat)
  specialNets : List Nat
  nextPin : Nat
  nextNet : Nat
  buffers : List InsertedBuf
  insertedBufferCount : Nat
deriving DecidableEq, Repr

/-- The filter of the port loop (lines 359-362): input direction, not a
clock pin, and the port's net neither missing nor special. -/
def portEligible (conns : List (Nat × Nat)) (specialNets : List Nat)
    (p : PortE) : Bool :=
  p.isInput && !p.isClk
    && ((netOf conns p.pin).elim false
        (fun n => !(specialNets.contains n)))

/-- `Resizer::bufferInput` (lines 371-407): mint a net and a buffer,
place the buffer at the closest core point to the port, move every pin
of the port's net except the port onto the new net, then connect the
buffer's input to the port's net and its output to the new net. -/
def bufferInput (st : BINetlist) (p : PortE) (core : Rect) : BINetlist :=
  match netOf st.conns p.pin with
  | none => st
  | some input_net =>
    ⟨reconnectPin
        (reconnectPin
          (reconnectPins st.conns
            ((pinsOfNet st.conns input_net).filter (· ≠ p.pin))
            st.nextNet)
          st.nextPin input_net)
        (st.nextPin + 1) st.nextNet,
      st.specialNets, st.nextPin + 2, st.nextNet + 1,
      st.buffers ++ [⟨p.pin, st.nextPin, st.nextPin + 1, st.nextNet,
        closestPtInRect core p.loc.x p.loc.y⟩],
      st.insertedBufferCount + 1⟩

/-- The port loop of `Resizer::bufferInputs` (lines 355-364). -/
def bufferInputsAux (core : Rect) : List PortE → BINetlist → BINetlist
  | [], st => st
  | p :: ps, st =>
    bufferInputsAux core ps
      (if portEligible st.conns st.specialNets p then bufferInput st p core
       else st)

/-- `Resizer::bufferInputs`: reset `inserted_buffer_count_` to zero and
run the port loop. -/
def bufferInputs (st : BINetlist) (ports : List PortE) (core : Rect) :
    BINetlist :=
  bufferInputsAux core ports
    ⟨st.conns, st.specialNets, st.nextPin, st.nextNet, st.buffers, 0⟩

/-- Well-formedness of the netlist seen by `bufferInputs`: pins connect
at most once, existing handles lie below the mint counters, and
distinct top-level ports have distinct pins on distinct nets. -/
structure BIWf (st : BINetlist) (ports : List PortE) : Prop where
  nodup : KeyNodup st.conns
  pinBound : ∀ c ∈ st.conns, c.1 < st.nextPin
  netBound : ∀ c ∈ st.conns, c.2 < st.nextNet
  portBound : ∀ p ∈ ports, p.pin < st.nextPin
  distinct : List.Pairwise (fun p1 p2 => p1.pin ≠ p2.pin ∧
    ∀ n1 n2, netOf st.conns p1.pin = some n1 →
      netOf st.conns p2.pin = some n2 → n1 ≠ n2) ports

/-- Reduction of `bufferInput` when the port's net exists. -/
theorem bufferInput_eq (st : BINetlist) (p : PortE) (core : Rect) (n : Nat)
    (hn : netOf st.conns p.pin = some n) :
    bufferInput st p core
      = ⟨reconnectPin
            (reconnectPin
              (reconnectPins st.conns
                ((pinsOfNet st.conns n).filter (· ≠ p.pin)) st.nextNet)
              st.nextPin n)
            (st.nextPin + 1) st.nextNet,
          st.specialNets, st.nextPin + 2, st.nextNet + 1,
          st.buffers ++ [⟨p.pin, st.nextPin, st.nextPin + 1, st.nextNet,
            closestPtInRect core p.loc.x p.loc.y⟩],
          st.insertedBufferCount + 1⟩ := by
  unfold bufferInput
  rw [hn]

theorem entry_of_netOf_some (conns : List (Nat × Nat)) (q m : Nat)
    (h : netOf conns q = some m) : ∃ c ∈ conns, c.1 = q ∧ c.2 = m := by
  unfold netOf at h
  obtain ⟨c, hf, hm⟩ := Option.map_eq_some'.mp h
  exact ⟨c, List.mem_of_find?_eq_some hf,
    by simpa using List.find?_some hf, hm⟩

theorem pinsOfNet_lt (conns : List (Nat × Nat)) (n N : Nat)
    (hb : ∀ c ∈ conns, c.1 < N) (q : Nat) (hq : q ∈ pinsOfNet conns n) :
    q < N := by
  obtain ⟨c, hc, hck⟩ := List.mem_map.mp hq
  exact hck ▸ hb c (List.mem_of_mem_filter hc)

theorem mem_reconnectPin (conns : List (Nat × Nat)) (p n : Nat)
    (c : Nat × Nat) (h : c ∈ reconnectPin conns p n) :
    c = (p, n) ∨ c ∈ conns := by
  unfold reconnectPin disconnectPin at h
  rcases List.mem_cons.mp h with h | h
  · exact Or.inl h
  · exact Or.inr (List.mem_of_mem_filter h)

theorem mem_reconnectPins (pins : List Nat) :
    ∀ (conns : List (Nat × Nat)) (n : Nat) (c : Nat × Nat),
      c ∈ reconnectPins conns pins n →
      (c.1 ∈ pins ∧ c.2 = n) ∨ c ∈ conns := by
  induction pins with
  | nil =>
    intro conns n c h
    exact Or.inr h
  | cons p ps ih =>
    intro conns n c h
    have hstep : reconnectPins conns (p :: ps) n
        = reconnectPins (reconnectPin conns p n) ps n := rfl
    rw [hstep] at h
    rcases ih (reconnectPin conns p n) n c h with h' | h'
    · exact Or.inl ⟨List.mem_cons_of_mem p h'.1, h'.2⟩
    · rcases mem_reconnectPin conns p n c h' with h'' | h''
      · refine Or.inl ⟨?_, ?_⟩
        · rw [h'']
          exact List.mem_cons_self p ps
        · rw [h'']
      · exact Or.inr h''

/-- Step characterization of `bufferInput`: the buffer's output pin
joins the fresh net, its input pin joins the port's net, the port stays
put, every other pin of the port's net moves to the fresh net, and all
remaining pins keep their connection. -/
theorem bufferInput_netOf (st : BINetlist) (p : PortE) (core : Rect)
    (n : Nat) (hnodup : KeyNodup st.conns)
    (hb : ∀ c ∈ st.conns, c.1 < st.nextPin)
    (hn : netOf st.conns p.pin = some n) (q : Nat) :
    netOf (bufferInput st p core).conns q
      = if q = st.nextPin + 1 then some st.nextNet
        else if q = st.nextPin then some n
        else if q = p.pin then some n
        else if netOf st.conns q = some n then some st.nextNet
        else netOf st.conns q := by
  have hppin : p.pin < st.nextPin := by
    obtain ⟨c, hc, hck, _⟩ := entry_of_netOf_some st.conns p.pin n hn
    exact hck ▸ hb c hc
  rw [bufferInput_eq st p core n hn]
  show netOf (reconnectPin (reconnectPin (reconnectPins st.conns
      ((pinsOfNet st.conns n).filter (· ≠ p.pin)) st.nextNet)
      st.nextPin n) (st.nextPin + 1) st.nextNet) q = _
  rw [netOf_reconnectPin, netOf_reconnectPin, netOf_reconnectPins]
  by_cases h1 : q = st.nextPin + 1
  · rw [if_pos h1, if_pos h1]
  rw [if_neg h1, if_neg h1]
  by_cases h2 : q = st.nextPin
  · rw [if_pos h2, if_pos h2]
  rw [if_neg h2, if_neg h2]
  by_cases h3 : q = p.pin
  · have hmoved : q ∉ (pinsOfNet st.conns n).filter (· ≠ p.pin) := by
      intro hmem
      have := (List.mem_filter.mp hmem).2
      simp [h3] at this
    rw [if_neg hmoved, if_pos h3, h3, hn]
  rw [if_neg h3]
  by_cases h4 : netOf st.conns q = some n
  · have hmoved : q ∈ (pinsOfNet st.conns n).filter (· ≠ p.pin) :=
      List.mem_filter.mpr
        ⟨mem_pinsOfNet_of_netOf st.conns q n h4, by simp [h3]⟩
    rw [if_pos hmoved, if_pos h4]
  · have hmoved : q ∉ (pinsOfNet st.conns n).filter (· ≠ p.pin) := by
      intro hmem
      exact h4 (netOf_of_mem_pinsOfNet st.conns hnodup q n
        (List.mem_of_mem_filter hmem))
    rw [if_neg hmoved, if_neg h4]

/-- A pin below the mint counter, distinct from the port and not on the
port's net, keeps its connection across `bufferInput`. -/
theorem bufferInput_netOf_other (st : BINetlist) (p : PortE) (core : Rect)
    (n : Nat) (hnodup : KeyNodup st.conns)
    (hb : ∀ c ∈ st.conns, c.1 < st.nextPin)
    (hn : netOf st.conns p.pin = some n) (q : Nat)
    (hqp : q ≠ p.pin) (hqlt : q < st.nextPin)
    (hqn : netOf st.conns q ≠ some n) :
    netOf (bufferInput st p core).conns q = netOf st.conns q := by
  rw [bufferInput_netOf st p core n hnodup hb hn q,
    if_neg (by omega), if_neg (by omega), if_neg hqp, if_neg hqn]

/-- An eligible port is connected. -/
theorem portEligible_some (conns : List (Nat × Nat))
    (specialNets : List Nat) (p : PortE)
    (h : portEligible conns specialNets p = true) :
    ∃ n, netOf conns p.pin = some n := by
  cases hm : netOf conns p.pin with
  | some n => exact ⟨n, rfl⟩
  | none =>
    exfalso
    unfold portEligible at h
    rw [hm] at h
    simp [Option.elim] at h

/-- The port loop, fully characterized: the fresh-net counter advances
once per eligible port, `inserted_buffer_count_` counts the eligible
ports, the inserted buffers list the eligible ports in order, nets
foreign to every eligible port keep exactly their pins, and every
eligible port ends up with its net connected only to the port and its
buffer's input, its buffer's output on the buffer's fresh net, and all
its former co-pins moved to that fresh net. -/
theorem bufferInputsAux_spec (core : Rect) :
    ∀ (ports : List PortE) (st : BINetlist), BIWf st ports →
      (bufferInputsAux core ports st).nextNet
          = st.nextNet
            + (ports.filter
                (fun p => portEligible st.conns st.specialNets p)).length ∧
      (bufferInputsAux core ports st).insertedBufferCount
          = st.insertedBufferCount
            + (ports.filter
                (fun p => portEligible st.conns st.specialNets p)).length ∧
      (∃ new, (bufferInputsAux core ports st).buffers
            = st.buffers ++ new ∧
          new.map (fun r => r.port)
            = (ports.filter
                (fun p => portEligible st.conns st.specialNets p)).map
                (fun p => p.pin)) ∧
      (∀ m, m < st.nextNet →
          (∀ p ∈ ports, portEligible st.conns st.specialNets p = true →
            netOf st.conns p.pin ≠ some m) →
          ∀ q, netOf (bufferInputsAux core ports st).conns q = some m
            ↔ netOf st.conns q = some m) ∧
      (∀ p ∈ ports, portEligible st.conns st.specialNets p = true →
          ∀ n, netOf st.conns p.pin = some n →
          ∃ r ∈ (bufferInputsAux core ports st).buffers,
            r.port = p.pin ∧
            r.loc = closestPtInRect core p.loc.x p.loc.y ∧
            n < r.outNet ∧
            (∀ q, netOf (bufferInputsAux core ports st).conns q = some n
              ↔ (q = p.pin ∨ q = r.inPin)) ∧
            netOf (bufferInputsAux core ports st).conns r.outPin
              = some r.outNet ∧
            (∀ q, q ≠ p.pin → netOf st.conns q = some n →
              netOf (bufferInputsAux core ports st).conns q
                = some r.outNet)) := by
  intro ports
  induction ports with
  | nil =>
    intro st _
    refine ⟨by simp [bufferInputsAux], by simp [bufferInputsAux],
      ⟨[], by simp [bufferInputsAux], by simp⟩, ?_, ?_⟩
    · intro m _ _ q
      exact Iff.rfl
    · intro p hp
      exact absurd hp (List.not_mem_nil p)
  | cons p ps ih =>
    intro st hwf
    by_cases he : portEligible st.conns st.specialNets p = true
    · obtain ⟨n, hn⟩ := portEligible_some st.conns st.specialNets p he
      have heq := bufferInput_eq st p core n hn
      have hnextPin' : (bufferInput st p core).nextPin = st.nextPin + 2 := by
        rw [heq]
      have hnextNet' : (bufferInput st p core).nextNet = st.nextNet + 1 := by
        rw [heq]
      have hspec : (bufferInput st p core).specialNets = st.specialNets := by
        rw [heq]
      have hcount' : (bufferInput st p core).insertedBufferCount
          = st.insertedBufferCount + 1 := by
        rw [heq]
      have hbufs' : (bufferInput st p core).buffers
          = st.buffers ++ [⟨p.pin, st.nextPin, st.nextPin + 1, st.nextNet,
              closestPtInRect core p.loc.x p.loc.y⟩] := by
        rw [heq]
      have hpair := List.pairwise_cons.mp hwf.distinct
      have hports' : ∀ p' ∈ ps, p'.pin < st.nextPin :=
        fun p' hp' => hwf.portBound p' (List.mem_cons_of_mem p hp')
      have hppin : p.pin < st.nextPin :=
        hwf.portBound p (List.mem_cons_self p ps)
      have hnlt : n < st.nextNet := by
        obtain ⟨c, hc, _, hcv⟩ := entry_of_netOf_some st.conns p.pin n hn
        exact hcv ▸ hwf.netBound c hc
      have hinv : ∀ p' ∈ ps,
          netOf (bufferInput st p core).conns p'.pin
            = netOf st.conns p'.pin := by
        intro p' hp'
        obtain ⟨hpin_ne, hnets⟩ := hpair.1 p' hp'
        exact bufferInput_netOf_other st p core n hwf.nodup hwf.pinBound hn
          p'.pin (Ne.symm hpin_ne) (hports' p' hp')
          (fun hc => (hnets n n hn hc) rfl)
      have helig : ∀ p' ∈ ps,
          portEligible (bufferInput st p core).conns
              (bufferInput st p core).specialNets p'
            = portEligible st.conns st.specialNets p' := by
        intro p' hp'
        unfold portEligible
        rw [hinv p' hp', hspec]
      have hfil : ps.filter (fun p' =>
            portEligible (bufferInput st p core).conns
              (bufferInput st p core).specialNets p')
          = ps.filter (fun p' => portEligible st.conns st.specialNets p') :=
        List.filter_congr (fun p' hp' => helig p' hp')
      have hwf' : BIWf (bufferInput st p core) ps := by
        constructor
        · rw [heq]
          exact keyNodup_reconnectPin _ _ _ (keyNodup_reconnectPin _ _ _
            (keyNodup_reconnectPins _ st.conns st.nextNet hwf.nodup))
        · intro c hc
          rw [heq] at hc
          rw [hnextPin']
          rcases mem_reconnectPin _ _ _ c hc with h1 | h1
          · rw [h1]
            show st.nextPin + 1 < st.nextPin + 2
            omega
          · rcases mem_reconnectPin _ _ _ c h1 with h2 | h2
            · rw [h2]
              show st.nextPin < st.nextPin + 2
              omega
            · rcases mem_reconnectPins _ _ _ c h2 with h3 | h3
              · have := pinsOfNet_lt st.conns n st.nextPin hwf.pinBound c.1
                  (List.mem_of_mem_filter h3.1)
                omega
              · have := hwf.pinBound c h3
                omega
        · intro c hc
          rw [heq] at hc
          rw [hnextNet']
          rcases mem_reconnectPin _ _ _ c hc with h1 | h1
          · rw [h1]
            show st.nextNet < st.nextNet + 1
            omega
          · rcases mem_reconnectPin _ _ _ c h1 with h2 | h2
            · rw [h2]
              show n < st.nextNet + 1
              omega
            · rcases mem_reconnectPins _ _ _ c h2 with h3 | h3
              · have := h3.2
                omega
              · have := hwf.netBound c h3
                omega
        · intro p' hp'
          rw [hnextPin']
          have := hports' p' hp'
          omega
        · refine List.Pairwise.imp_of_mem ?_ hpair.2
          intro a b ha hb hr
          exact ⟨hr.1, fun n1 n2 h1 h2 => hr.2 n1 n2
            (by rwa [hinv a ha] at h1) (by rwa [hinv b hb] at h2)⟩
      obtain ⟨IH1, IH2, ⟨new', hnew1, hnew2⟩, IH4, IH5⟩ :=
        ih (bufferInput st p core) hwf'
      have hunf : bufferInputsAux core (p :: ps) st
          = bufferInputsAux core ps (bufferInput st p core) := by
        show bufferInputsAux core ps
            (if portEligible st.conns st.specialNets p
             then bufferInput st p core else st) = _
        rw [if_pos he]
      have hne2 : ∀ p' ∈ ps,
          portEligible (bufferInput st p core).conns
              (bufferInput st p core).specialNets p' = true →
          netOf (bufferInput st p core).conns p'.pin ≠ some n := by
        intro p' hp' _
        rw [hinv p' hp']
        obtain ⟨hpin_ne, hnets⟩ := hpair.1 p' hp'
        exact fun hc => (hnets n n hn hc) rfl
      have hne3 : ∀ p' ∈ ps,
          portEligible (bufferInput st p core).conns
              (bufferInput st p core).specialNets p' = true →
          netOf (bufferInput st p core).conns p'.pin
            ≠ some st.nextNet := by
        intro p' hp' _
        rw [hinv p' hp']
        intro hc
        obtain ⟨c, hcm, _, hcv⟩ :=
          entry_of_netOf_some st.conns p'.pin st.nextNet hc
        have := hwf.netBound c hcm
        omega
      refine ⟨?_, ?_, ?_, ?_, ?_⟩
      · rw [hunf, IH1, hnextNet', hfil,
          List.filter_cons_of_pos (by simpa using he), List.length_cons]
        omega
      · rw [hunf, IH2, hcount', hfil,
          List.filter_cons_of_pos (by simpa using he), List.length_cons]
        omega
      · refine ⟨⟨p.pin, st.nextPin, st.nextPin + 1, st.nextNet,
            closestPtInRect core p.loc.x p.loc.y⟩ :: new', ?_, ?_⟩
        · rw [hunf, hnew1, hbufs']
          simp
        · rw [List.filter_cons_of_pos (by simpa using he), List.map_cons,
            List.map_cons, hnew2, hfil]
      · intro m hm hne q
        have hmne : n ≠ m :=
          fun hcontra => hne p (List.mem_cons_self p ps) he (hcontra ▸ hn)
        have hne' : ∀ p' ∈ ps,
            portEligible (bufferInput st p core).conns
                (bufferInput st p core).specialNets p' = true →
            netOf (bufferInput st p core).conns p'.pin ≠ some m := by
          intro p' hp' he'
          rw [helig p' hp'] at he'
          rw [hinv p' hp']
          exact hne p' (List.mem_cons_of_mem p hp') he'
        have hstep : ∀ q',
            netOf (bufferInput st p core).conns q' = some m
              ↔ netOf st.conns q' = some m := by
          intro q'
          rw [bufferInput_netOf st p core n hwf.nodup hwf.pinBound hn q']
          by_cases h1 : q' = st.nextPin + 1
          · rw [if_pos h1]
            apply iff_of_false
            · intro hc
              have : st.nextNet = m := by simpa using hc
              omega
            · intro hc
              obtain ⟨c, hcm, hck, _⟩ := entry_of_netOf_some _ _ _ hc
              have := hwf.pinBound c hcm
              omega
          rw [if_neg h1]
          by_cases h2 : q' = st.nextPin
          · rw [if_pos h2]
            apply iff_of_false
            · intro hc
              exact hmne (by simpa using hc)
            · intro hc
              obtain ⟨c, hcm, hck, _⟩ := entry_of_netOf_some _ _ _ hc
              have := hwf.pinBound c hcm
              omega
          rw [if_neg h2]
          by_cases h3 : q' = p.pin
          · rw [if_pos h3]
            apply iff_of_false
            · intro hc
              exact hmne (by simpa using hc)
            · intro hc
              rw [h3, hn] at hc
              exact hmne (by simpa using hc)
          rw [if_neg h3]
          by_cases h4 : netOf st.conns q' = some n
          · rw [if_pos h4]
            apply iff_of_false
            · intro hc
              have : st.nextNet = m := by simpa using hc
              omega
            · intro hc
              rw [h4] at hc
              exact hmne (by simpa using hc)
          · rw [if_neg h4]
        rw [hunf]
        exact Iff.trans
          (IH4 m (by rw [hnextNet']; omega) hne' q) (hstep q)
      · rw [hunf]
        intro p0 hp0 helig0 n0 hn0
        rcases List.mem_cons.mp hp0 with hh | hh
        · rw [hh] at hn0 ⊢
          have hn0n : n0 = n := by
            have h' := hn
            rw [hn0] at h'
            simpa using h'
          rw [hn0n] at hn0 ⊢
          refine ⟨⟨p.pin, st.nextPin, st.nextPin + 1, st.nextNet,
              closestPtInRect core p.loc.x p.loc.y⟩, ?_, rfl, rfl,
              hnlt, ?_, ?_, ?_⟩
          · rw [hnew1, hbufs']
            simp
          · intro q
            refine Iff.trans
              (IH4 n (by rw [hnextNet']; omega) hne2 q) ?_
            show netOf (bufferInput st p core).conns q = some n
              ↔ (q = p.pin ∨ q = st.nextPin)
            rw [bufferInput_netOf st p core n hwf.nodup hwf.pinBound hn q]
            by_cases h1 : q = st.nextPin + 1
            · rw [if_pos h1]
              apply iff_of_false
              · intro hc
                have : st.nextNet = n := by simpa using hc
                omega
              · intro hc
                rcases hc with hc | hc <;> omega
            rw [if_neg h1]
            by_cases h2 : q = st.nextPin
            · rw [if_pos h2]
              exact iff_of_true rfl (Or.inr h2)
            rw [if_neg h2]
            by_cases h3 : q = p.pin
            · rw [if_pos h3]
              exact iff_of_true rfl (Or.inl h3)
            rw [if_neg h3]
            by_cases h4 : netOf st.conns q = some n
            · rw [if_pos h4]
              apply iff_of_false
              · intro hc
                have : st.nextNet = n := by simpa using hc
                omega
              · intro hc
                rcases hc with hc | hc
                · exact h3 hc
                · exact h2 hc
            · rw [if_neg h4]
              apply iff_of_false
              · exact h4
              · intro hc
                rcases hc with hc | hc
                · exact h3 hc
                · exact h2 hc
          · show netOf (bufferInputsAux core ps (bufferInput st p core)).conns
                (st.nextPin + 1) = some st.nextNet
            apply (IH4 st.nextNet (by rw [hnextNet']; omega) hne3
              (st.nextPin + 1)).mpr
            rw [bufferInput_netOf st p core n hwf.nodup hwf.pinBound hn
              (st.nextPin + 1), if_pos rfl]
          · intro q hq hqn
            show netOf (bufferInputsAux core ps (bufferInput st p core)).conns
                q = some st.nextNet
            apply (IH4 st.nextNet (by rw [hnextNet']; omega) hne3 q).mpr
            have hqlt : q < st.nextPin := by
              obtain ⟨c, hc, hck, _⟩ := entry_of_netOf_some st.conns q n hqn
              exact hck ▸ hwf.pinBound c hc
            rw [bufferInput_netOf st p core n hwf.nodup hwf.pinBound hn q,
              if_neg (by omega), if_neg (by omega), if_neg hq, if_pos hqn]
        · have helig0' : portEligible (bufferInput st p core).conns
              (bufferInput st p core).specialNets p0 = true := by
            rw [helig p0 hh]
            exact helig0
          have hn0' : netOf (bufferInput st p core).conns p0.pin
              = some n0 := by
            rw [hinv p0 hh]
            exact hn0
          obtain ⟨r, hrmem, hrport, hrloc, hrlt, hriff, hrout, hrloads⟩ :=
            IH5 p0 hh helig0' n0 hn0'
          refine ⟨r, hrmem, hrport, hrloc, hrlt, hriff, hrout, ?_⟩
          intro q hq hqn
          apply hrloads q hq
          have hnn0 : n ≠ n0 := by
            obtain ⟨hpin_ne, hnets⟩ := hpair.1 p0 hh
            exact hnets n n0 hn hn0
          have hqp : q ≠ p.pin := by
            intro hcontra
            rw [hcontra, hn] at hqn
            exact hnn0 (by simpa using hqn)
          have hqlt : q < st.nextPin := by
            obtain ⟨c, hc, hck, _⟩ := entry_of_netOf_some st.conns q n0 hqn
            exact hck ▸ hwf.pinBound c hc
          have hqnn : netOf st.conns q ≠ some n := by
            rw [hqn]
            intro hc
            have hc' : n0 = n := by simpa using hc
            exact hnn0 hc'.symm
          rw [bufferInput_netOf_other st p core n hwf.nodup hwf.pinBound hn q
            hqp hqlt hqnn]
          exact hqn
    · have hunf : bufferInputsAux core (p :: ps) st
          = bufferInputsAux core ps st := by
        show bufferInputsAux core ps
            (if portEligible st.conns st.specialNets p
             then bufferInput st p core else st) = _
        rw [if_neg he]
      have hwf' : BIWf st ps :=
        ⟨hwf.nodup, hwf.pinBound, hwf.netBound,
          fun p' hp' => hwf.portBound p' (List.mem_cons_of_mem p hp'),
          (List.pairwise_cons.mp hwf.distinct).2⟩
      obtain ⟨IH1, IH2, ⟨new', hnew1, hnew2⟩, IH4, IH5⟩ := ih st hwf'
      have hfilneg : (p :: ps).filter
            (fun p' => portEligible st.conns st.specialNets p')
          = ps.filter (fun p' => portEligible st.conns st.specialNets p') :=
        List.filter_cons_of_neg (by simpa using he)
      refine ⟨?_, ?_, ?_, ?_, ?_⟩
      · rw [hunf, IH1, hfilneg]
      · rw [hunf, IH2, hfilneg]
      · exact ⟨new', by rw [hunf, hnew1], by rw [hnew2, hfilneg]⟩
      · intro m hm hne q
        rw [hunf]
        exact IH4 m hm
          (fun p' hp' => hne p' (List.mem_cons_of_mem p hp')) q
      · intro p0 hp0 helig0 n0 hn0
        rcases List.mem_cons.mp hp0 with hh | hh
        · subst hh
          exact absurd helig0 he
        · rw [hunf]
          exact IH5 p0 hh helig0 n0 hn0

/-- C7: `bufferInputs` buffers exactly the top-level input ports that
are not clocks and whose net is not special: `inserted_buffer_count_`
ends at the number of such ports, one fresh net is minted per buffered
port, the inserted buffers list those ports in order, and for each
buffered port the buffer sits at the closest core point to the port's
location, the port's net ends up connected exactly to the port and the
buffer's input pin, the buffer's output pin drives the buffer's fresh
net, and every other pin formerly on the port's net is rewired onto
that fresh net. -/
theorem buffer_inputs_spec (st : BINetlist) (ports : List PortE)
    (core : Rect) (hwf : BIWf st ports) :
    (bufferInputs st ports core).insertedBufferCount
        = (ports.filter
            (fun p => portEligible st.conns st.specialNets p)).length ∧
    (bufferInputs st ports core).nextNet
        = st.nextNet
          + (ports.filter
              (fun p => portEligible st.conns st.specialNets p)).length ∧
    (∃ new, (bufferInputs st ports core).buffers = st.buffers ++ new ∧
        new.map (fun r => r.port)
          = (ports.filter
              (fun p => portEligible st.conns st.specialNets p)).map
              (fun p => p.pin)) ∧
    (∀ p ∈ ports, portEligible st.conns st.specialNets p = true →
        ∀ n, netOf st.conns p.pin = some n →
        ∃ r ∈ (bufferInputs st ports core).buffers,
          r.port = p.pin ∧
          r.loc = closestPtInRect core p.loc.x p.loc.y ∧
          n < r.outNet ∧
          (∀ q, netOf (bufferInputs st ports core).conns q = some n
            ↔ (q = p.pin ∨ q = r.inPin)) ∧
          netOf (bufferInputs st ports core).conns r.outPin
            = some r.outNet ∧
          (∀ q, q ≠ p.pin → netOf st.conns q = some n →
            netOf (bufferInputs st ports core).conns q
              = some r.outNet)) := by
  obtain ⟨h1, h2, h3, _, h5⟩ := bufferInputsAux_spec core ports
    ⟨st.conns, st.specialNets, st.nextPin, st.nextNet, st.buffers, 0⟩
    ⟨hwf.nodup, hwf.pinBound, hwf.netBound, hwf.portBound, hwf.distinct⟩
  exact ⟨h2.trans (Nat.zero_add _), h1, h3, h5⟩

/-- Concrete check of `buffer_inputs_spec` on the spec's S1 scenario:
one input port (pin `1`) on net `10` with one sink (pin `2`); after
`bufferInputs` exactly one buffer has been inserted. -/
theorem buffer_inputs_spec_witness :
    (bufferInputs ⟨[(1, 10), (2, 10)], [], 3, 11, [], 7⟩
        [⟨1, true, false, ⟨0, 0⟩⟩] ⟨0, 0, 100, 100⟩).insertedBufferCount
      = 1 := by
  have h := buffer_inputs_spec ⟨[(1, 10), (2, 10)], [], 3, 11, [], 7⟩
    [⟨1, true, false, ⟨0, 0⟩⟩] ⟨0, 0, 100, 100⟩
    ⟨by show ([(1, 10), (2, 10)].map
        (Prod.fst (α := Nat) (β := Nat))).Nodup
        decide,
      by decide, by decide, by decide, by simp⟩
  rw [h.1]
  decide

end Resizer
